import Mathlib

/-!
Shallow embedding of `src/app_streamlit_outlook_extract.py`: an email-contact
extraction pipeline.  Rows of the input table are ordered mappings from column
name to cell text (the CSV is read with `dtype=str, keep_default_na=False`, so
every cell is a string and `pd.isna` is never true).  The Streamlit UI layer
(file upload, sliders, downloads) is out of scope; the configuration values it
collects become explicit parameters, and `datetime.now()` becomes the `now`
parameter of the pipeline.

Python sets and dicts are modelled as insertion-ordered duplicate-free lists;
`datetime` values as a six-field record compared lexicographically (Python
compares datetimes by their field tuple); `re.finditer` of the fixed
`EMAIL_REGEX` as a hand-rolled scanner with the same leftmost / greedy /
non-overlapping semantics; user-supplied regex patterns as records carrying
their raw text, whether they compile (`valid`), and their match oracle
(`search`), because only those three observations of `re` are used.
-/

namespace OutlookExtract

/-! ### String helpers (Python `str` operations on ASCII data) -/

def lowerStr (s : String) : String := String.mk (s.data.map Char.toLower)

def upperStr (s : String) : String := String.mk (s.data.map Char.toUpper)

/-- Python `str.capitalize`: first character upper-cased, the rest lower-cased. -/
def pyCapitalize (s : String) : String :=
  match s.data with
  | [] => ""
  | c :: cs => String.mk (c.toUpper :: cs.map Char.toLower)

def splitCharAux (sep : Char) : List Char → List Char → List (List Char)
  | [], acc => [acc.reverse]
  | c :: cs, acc =>
    if c = sep then acc.reverse :: splitCharAux sep cs [] else splitCharAux sep cs (c :: acc)

/-- Python `s.split(sep)` for a one-character separator. -/
def splitChar (sep : Char) (s : String) : List String :=
  (splitCharAux sep s.data []).map String.mk

def joinStr (sep : String) : List String → String
  | [] => ""
  | x :: rest => rest.foldl (fun acc y => acc ++ sep ++ y) x

def startsWithStr (s pre : String) : Bool := pre.data.isPrefixOf s.data

def endsWithStr (s suf : String) : Bool := suf.data.isSuffixOf s.data

def dropRightStr (s : String) (n : Nat) : String :=
  String.mk (s.data.take (s.data.length - n))

def isPySpace (c : Char) : Bool := c = ' ' || c = '\t' || c = '\n' || c = '\r'

/-- Python `str.strip()` (the whitespace actually occurring here is ASCII). -/
def stripStr (s : String) : String :=
  String.mk (((s.data.dropWhile isPySpace).reverse.dropWhile isPySpace).reverse)

def replaceChar (a b : Char) (s : String) : String :=
  String.mk (s.data.map fun c => if c = a then b else c)

/-- Python string `<`: lexicographic comparison of code points. -/
def charListLt : List Char → List Char → Bool
  | [], [] => false
  | [], _ :: _ => true
  | _ :: _, [] => false
  | a :: as, b :: bs => a < b || (a = b && charListLt as bs)

def strLtB (a b : String) : Bool := charListLt a.data b.data

def strLeB (a b : String) : Bool := !(strLtB b a)

def strLe (a b : String) : Prop := strLeB a b = true

instance : DecidableRel strLe := fun a b => instDecidableEqBool (strLeB a b) true

/-- Python `sorted` on a list of strings (ascending code-point order). -/
def sortStrings (l : List String) : List String := List.insertionSort strLe l

/-! ### Dates: the subset of `datetime` the script uses -/

structure DateTime where
  year : Nat
  month : Nat
  day : Nat
  hour : Nat
  minute : Nat
  second : Nat
deriving DecidableEq, Repr

/-- Python `datetime <`: lexicographic on the field tuple. -/
def dtLt (a b : DateTime) : Bool :=
  decide (a.year < b.year) || (decide (a.year = b.year) &&
    (decide (a.month < b.month) || (decide (a.month = b.month) &&
      (decide (a.day < b.day) || (decide (a.day = b.day) &&
        (decide (a.hour < b.hour) || (decide (a.hour = b.hour) &&
          (decide (a.minute < b.minute) || (decide (a.minute = b.minute) &&
            decide (a.second < b.second))))))))))

/-- Python `datetime >=` (total order, so `a ≤ b ↔ ¬ b < a`). -/
def dtLe (a b : DateTime) : Bool := !(dtLt b a)

def isLeap (y : Nat) : Bool := y % 4 = 0 && (y % 100 ≠ 0 || y % 400 = 0)

def daysInMonth (y m : Nat) : Nat :=
  if m = 2 then (if isLeap y then 29 else 28)
  else if m = 4 || m = 6 || m = 9 || m = 11 then 30
  else 31

/-- Days since 1970-01-01 of a civil date (Hinnant's `days_from_civil`). -/
def daysFromCivil (y m d : Int) : Int :=
  let y' := if m ≤ 2 then y - 1 else y
  let era := Int.ediv y' 400
  let yoe := y' - era * 400
  let mp := Int.emod (m + 9) 12
  let doy := Int.ediv (153 * mp + 2) 5 + d - 1
  let doe := yoe * 365 + Int.ediv yoe 4 - Int.ediv yoe 100 + doy
  era * 146097 + doe - 719468

/-- Inverse of `daysFromCivil` (Hinnant's `civil_from_days`). -/
def civilFromDays (z0 : Int) : Int × Int × Int :=
  let z := z0 + 719468
  let era := Int.ediv z 146097
  let doe := z - era * 146097
  let yoe := Int.ediv (doe - Int.ediv doe 1460 + Int.ediv doe 36524 - Int.ediv doe 146096) 365
  let y := yoe + era * 400
  let doy := doe - (365 * yoe + Int.ediv yoe 4 - Int.ediv yoe 100)
  let mp := Int.ediv (5 * doy + 2) 153
  let d := doy - Int.ediv (153 * mp + 2) 5 + 1
  let m := if mp < 10 then mp + 3 else mp - 9
  (if m ≤ 2 then y + 1 else y, m, d)

/-- `dt - timedelta(days=n)`: whole-day subtraction keeps the time of day. -/
def subDays (dt : DateTime) (n : Nat) : DateTime :=
  let z := daysFromCivil (dt.year) (dt.month) (dt.day) - (n : Int)
  let c := civilFromDays z
  ⟨c.1.toNat, c.2.1.toNat, c.2.2.toNat, dt.hour, dt.minute, dt.second⟩

def pad2 (n : Nat) : String := if n < 10 then "0" ++ toString n else toString n

def pad4 (n : Nat) : String :=
  if n < 10 then "000" ++ toString n
  else if n < 100 then "00" ++ toString n
  else if n < 1000 then "0" ++ toString n
  else toString n

/-- `dt.strftime("%Y-%m-%d %H:%M:%S")`. -/
def fmtDateTime (dt : DateTime) : String :=
  pad4 dt.year ++ "-" ++ pad2 dt.month ++ "-" ++ pad2 dt.day ++ " " ++
    pad2 dt.hour ++ ":" ++ pad2 dt.minute ++ ":" ++ pad2 dt.second

/-! ### `parse_date`: `strptime` against the six `DATE_FORMATS`, then
`datetime.fromisoformat` as fallback.  Each CPython `strptime` directive is
modelled by the regex `TimeRE` actually compiles for it (two-digit alternative
first, then one digit), the whole string must be consumed, and the final
`datetime(...)` constructor validates the day against the month length. -/

def isDig (c : Char) : Bool := c.isDigit

def digVal (c : Char) : Nat := c.toNat - 48

def pLit (c : Char) : List Char → Option (List Char)
  | x :: rest => if x = c then some rest else none
  | [] => none

/-- Numeric directive accepting two digits (preferred) or one, value in `lo..hi`. -/
def pNum2 (lo hi : Nat) : List Char → Option (Nat × List Char)
  | c1 :: c2 :: rest =>
    if isDig c1 && isDig c2 && decide (lo ≤ digVal c1 * 10 + digVal c2) &&
        decide (digVal c1 * 10 + digVal c2 ≤ hi) then
      some (digVal c1 * 10 + digVal c2, rest)
    else if isDig c1 && decide (lo ≤ digVal c1) && decide (digVal c1 ≤ hi) then
      some (digVal c1, c2 :: rest)
    else none
  | [c1] =>
    if isDig c1 && decide (lo ≤ digVal c1) && decide (digVal c1 ≤ hi) then
      some (digVal c1, [])
    else none
  | [] => none

/-- `%Y`: exactly four digits. -/
def pYear4 : List Char → Option (Nat × List Char)
  | a :: b :: c :: d :: rest =>
    if isDig a && isDig b && isDig c && isDig d then
      some ((((digVal a * 10 + digVal b) * 10 + digVal c) * 10 + digVal d), rest)
    else none
  | _ => none

/-- Exactly two digits (used by the ISO fallback). -/
def p2d : List Char → Option (Nat × List Char)
  | a :: b :: rest => if isDig a && isDig b then some (digVal a * 10 + digVal b, rest) else none
  | _ => none

/-- `%p` (case-insensitive AM/PM); returns `true` for PM. -/
def pAmPm : List Char → Option (Bool × List Char)
  | a :: b :: rest =>
    if (a = 'A' || a = 'a') && (b = 'M' || b = 'm') then some (false, rest)
    else if (a = 'P' || a = 'p') && (b = 'M' || b = 'm') then some (true, rest)
    else none
  | _ => none

def pEnd : List Char → Option Unit
  | [] => some ()
  | _ :: _ => none

/-- The `datetime(y, m, d, h, mi, s)` constructor's range validation. -/
def mkDT (y mo d h mi s : Nat) : Option DateTime :=
  if decide (1 ≤ y) && decide (y ≤ 9999) && decide (1 ≤ mo) && decide (mo ≤ 12) &&
      decide (1 ≤ d) && decide (d ≤ daysInMonth y mo) && decide (h ≤ 23) &&
      decide (mi ≤ 59) && decide (s ≤ 59) then
    some ⟨y, mo, d, h, mi, s⟩
  else none

def hour12to24 (h12 : Nat) (pm : Bool) : Nat :=
  if pm then (if h12 = 12 then 12 else h12 + 12)
  else (if h12 = 12 then 0 else h12)

/-- `"%m/%d/%Y %I:%M:%S %p"` -/
def parseFmt1 (cs : List Char) : Option DateTime := do
  let (mo, cs) ← pNum2 1 12 cs
  let cs ← pLit '/' cs
  let (d, cs) ← pNum2 1 31 cs
  let cs ← pLit '/' cs
  let (y, cs) ← pYear4 cs
  let cs ← pLit ' ' cs
  let (h, cs) ← pNum2 1 12 cs
  let cs ← pLit ':' cs
  let (mi, cs) ← pNum2 0 59 cs
  let cs ← pLit ':' cs
  let (s, cs) ← pNum2 0 59 cs
  let cs ← pLit ' ' cs
  let (pm, cs) ← pAmPm cs
  let _ ← pEnd cs
  mkDT y mo d (hour12to24 h pm) mi s

/-- `"%m/%d/%Y %H:%M"` -/
def parseFmt2 (cs : List Char) : Option DateTime := do
  let (mo, cs) ← pNum2 1 12 cs
  let cs ← pLit '/' cs
  let (d, cs) ← pNum2 1 31 cs
  let cs ← pLit '/' cs
  let (y, cs) ← pYear4 cs
  let cs ← pLit ' ' cs
  let (h, cs) ← pNum2 0 23 cs
  let cs ← pLit ':' cs
  let (mi, cs) ← pNum2 0 59 cs
  let _ ← pEnd cs
  mkDT y mo d h mi 0

/-- `"%d/%m/%Y %H:%M"` -/
def parseFmt3 (cs : List Char) : Option DateTime := do
  let (d, cs) ← pNum2 1 31 cs
  let cs ← pLit '/' cs
  let (mo, cs) ← pNum2 1 12 cs
  let cs ← pLit '/' cs
  let (y, cs) ← pYear4 cs
  let cs ← pLit ' ' cs
  let (h, cs) ← pNum2 0 23 cs
  let cs ← pLit ':' cs
  let (mi, cs) ← pNum2 0 59 cs
  let _ ← pEnd cs
  mkDT y mo d h mi 0

/-- `"%d/%m/%Y %I:%M:%S %p"` -/
def parseFmt4 (cs : List Char) : Option DateTime := do
  let (d, cs) ← pNum2 1 31 cs
  let cs ← pLit '/' cs
  let (mo, cs) ← pNum2 1 12 cs
  let cs ← pLit '/' cs
  let (y, cs) ← pYear4 cs
  let cs ← pLit ' ' cs
  let (h, cs) ← pNum2 1 12 cs
  let cs ← pLit ':' cs
  let (mi, cs) ← pNum2 0 59 cs
  let cs ← pLit ':' cs
  let (s, cs) ← pNum2 0 59 cs
  let cs ← pLit ' ' cs
  let (pm, cs) ← pAmPm cs
  let _ ← pEnd cs
  mkDT y mo d (hour12to24 h pm) mi s

/-- `"%Y-%m-%d %H:%M:%S"` -/
def parseFmt5 (cs : List Char) : Option DateTime := do
  let (y, cs) ← pYear4 cs
  let cs ← pLit '-' cs
  let (mo, cs) ← pNum2 1 12 cs
  let cs ← pLit '-' cs
  let (d, cs) ← pNum2 1 31 cs
  let cs ← pLit ' ' cs
  let (h, cs) ← pNum2 0 23 cs
  let cs ← pLit ':' cs
  let (mi, cs) ← pNum2 0 59 cs
  let cs ← pLit ':' cs
  let (s, cs) ← pNum2 0 59 cs
  let _ ← pEnd cs
  mkDT y mo d h mi s

/-- `"%Y-%m-%d"` -/
def parseFmt6 (cs : List Char) : Option DateTime := do
  let (y, cs) ← pYear4 cs
  let cs ← pLit '-' cs
  let (mo, cs) ← pNum2 1 12 cs
  let cs ← pLit '-' cs
  let (d, cs) ← pNum2 1 31 cs
  let _ ← pEnd cs
  mkDT y mo d 0 0 0

/-- `datetime.fromisoformat`, modelled for the grammar
`YYYY-MM-DD[<any one char>HH[:MM[:SS]]]` (two-digit fields); fractional
seconds are not modelled — no claim exercises this fallback. -/
def parseIsoFallback (cs : List Char) : Option DateTime := do
  let (y, cs) ← pYear4 cs
  let cs ← pLit '-' cs
  let (mo, cs) ← p2d cs
  let cs ← pLit '-' cs
  let (d, cs) ← p2d cs
  match cs with
  | [] => mkDT y mo d 0 0 0
  | _sep :: cs1 => do
    let (h, cs2) ← p2d cs1
    match cs2 with
    | [] => mkDT y mo d h 0 0
    | _ => do
      let cs3 ← pLit ':' cs2
      let (mi, cs4) ← p2d cs3
      match cs4 with
      | [] => mkDT y mo d h mi 0
      | _ => do
        let cs5 ← pLit ':' cs4
        let (s, cs6) ← p2d cs5
        let _ ← pEnd cs6
        mkDT y mo d h mi s

/-- `parse_date`: strip, try the six formats in order, then the ISO fallback. -/
def parse_date (s : String) : Option DateTime :=
  let t := stripStr s
  if t = "" then none
  else
    match parseFmt1 t.data with
    | some dt => some dt
    | none =>
      match parseFmt2 t.data with
      | some dt => some dt
      | none =>
        match parseFmt3 t.data with
        | some dt => some dt
        | none =>
          match parseFmt4 t.data with
          | some dt => some dt
          | none =>
            match parseFmt5 t.data with
            | some dt => some dt
            | none =>
              match parseFmt6 t.data with
              | some dt => some dt
              | none => parseIsoFallback t.data

/-! ### The fixed tables of the script -/

def PERSONAL_DOMAINS : List String :=
  ["gmail.com", "hotmail.com", "outlook.com", "yahoo.com", "icloud.com", "proton.me",
   "live.com", "msn.com"]

def COMPANY_SUFFIXES : List String :=
  ["consulting", "consultores", "consultora", "solutions", "soluciones", "group", "grupo",
   "corp", "corporation", "company", "compania", "compañia", "co", "ltda", "ltd", "llc",
   "srl", "sa", "saa", "sac", "inc", "ag", "gmbh", "bv", "plc", "pty", "sas"]

def DEFAULT_ROLE_PREFIXES : List String :=
  ["ventas", "sales", "info", "contact", "admin", "hr", "hello", "support",
   "marketing", "billing", "accounts", "compras", "noreply", "no-reply", "noresponder",
   "no-responder"]

def COUNTRY_MAP : List (String × String) :=
  [("ar", "Argentina"), ("bo", "Bolivia"), ("br", "Brasil"), ("cl", "Chile"),
   ("co", "Colombia"), ("cr", "Costa Rica"), ("do", "República Dominicana"),
   ("ec", "Ecuador"), ("es", "España"), ("gt", "Guatemala"), ("hn", "Honduras"),
   ("mx", "México"), ("ni", "Nicaragua"), ("pa", "Panamá"), ("pe", "Perú"),
   ("py", "Paraguay"), ("sv", "El Salvador"), ("uy", "Uruguay"), ("ve", "Venezuela"),
   ("pr", "Puerto Rico")]

/-! ### Identity classifier -/

def split_domain (domain : String) : String × String :=
  let parts := splitChar '.' (lowerStr domain)
  match parts.reverse with
  | last :: sl :: _ => (sl, last)
  | [only] => (only, "")
  | [] => ("", "")

def prettify_company_from_domain (domain : String) : String :=
  let d := lowerStr domain
  if PERSONAL_DOMAINS.contains d then "Particular"
  else
    let sld := (split_domain d).1
    match COMPANY_SUFFIXES.find? (fun suf => endsWithStr sld suf) with
    | some suf =>
      let core := dropRightStr sld suf.length
      let coreAlpha :=
        match core.data.getLast? with
        | some ch => ch.isAlpha
        | none => false
      let company :=
        if core ≠ "" && coreAlpha then
          (if core.data.length ≤ 3 then upperStr core else pyCapitalize core) ++ " " ++
            pyCapitalize suf
        else pyCapitalize suf
      stripStr company
    | none => if sld.data.length ≤ 3 then upperStr sld else pyCapitalize sld

def infer_name_parts (local_part : String) : String × String :=
  let lp := replaceChar '_' '.' (replaceChar '-' '.' (lowerStr local_part))
  let tokens := (splitChar '.' lp).filter (fun t => t ≠ "" && !(t.data.all Char.isDigit))
  let nombre := match tokens with | [] => "" | t :: _ => pyCapitalize t
  let apellido := if tokens.length ≥ 2 then pyCapitalize (tokens.getLastD "") else ""
  (nombre, apellido)

def infer_country_from_domain (domain : String) : String :=
  if domain = "" then ""
  else
    let labels := splitChar '.' (lowerStr domain)
    if labels.length < 2 then ""
    else
      match labels.reverse with
      | last :: restRev =>
        if last.data.length = 2 && last.data.all Char.isAlpha then
          (COUNTRY_MAP.lookup last).getD ""
        else
          match restRev with
          | pen :: _ =>
            if pen.data.length = 2 && pen.data.all Char.isAlpha then
              (COUNTRY_MAP.lookup pen).getD ""
            else ""
          | [] => ""
      | [] => ""

/-! ### The EMAIL_REGEX scanner

`re.finditer(r"([A-Za-z0-9._%+\-]+@[A-Za-z0-9.\-]+\.[A-Za-z]{2,})", text)`:
scan left to right; at a match position the local part is the maximal run of
local chars (it must be followed by `@` — shorter runs cannot help because `@`
is not a local char); after `@` the maximal run of domain chars is split by
backtracking at the right-most dot that is followed by at least two letters
and preceded by a non-empty domain part; the TLD is the greedy letter run
after that dot.  Scanning resumes after the match (non-overlapping), else one
character further. -/

def isLocalChar (c : Char) : Bool :=
  c.isAlpha || c.isDigit || c = '.' || c = '_' || c = '%' || c = '+' || c = '-'

def isDomainChar (c : Char) : Bool := c.isAlpha || c.isDigit || c = '.' || c = '-'

def splitsAt : List Char → List (List Char × List Char)
  | [] => [([], [])]
  | c :: cs => ([], c :: cs) :: (splitsAt cs).map (fun p => (c :: p.1, p.2))

def goodSplit (p : List Char × List Char) : Bool :=
  match p.2 with
  | '.' :: t => decide (p.1 ≠ []) && decide ((t.takeWhile Char.isAlpha).length ≥ 2)
  | _ => false

def bestDotSplit (dom : List Char) : Option (List Char × List Char) :=
  ((splitsAt dom).filter goodSplit).getLast?

def tryMatchAt (cs : List Char) : Option (String × List Char) :=
  let loc := cs.takeWhile isLocalChar
  let rest1 := cs.dropWhile isLocalChar
  if loc = [] then none
  else
    match rest1 with
    | [] => none
    | a :: rest2 =>
      if a = '@' then
        let dom := rest2.takeWhile isDomainChar
        let domRest := rest2.dropWhile isDomainChar
        match bestDotSplit dom with
        | some (pre, post) =>
          -- `goodSplit` guarantees `post` starts with the matched dot
          let tail := post.tail
          let tld := tail.takeWhile Char.isAlpha
          let leftover := tail.dropWhile Char.isAlpha
          some (String.mk (loc ++ '@' :: (pre ++ '.' :: tld)), leftover ++ domRest)
        | none => none
      else none

def scanEmailsAux : Nat → List Char → List String
  | 0, _ => []
  | _, [] => []
  | fuel + 1, c :: rest =>
    match tryMatchAt (c :: rest) with
    | some (em, remaining) => em :: scanEmailsAux fuel remaining
    | none => scanEmailsAux fuel rest

def extractEmails (s : String) : List String := scanEmailsAux s.data.length s.data

/-! ### Harvester -/

/-- Ordered, duplicate-free accumulation (Python `set.add` determinised to
first-insertion order; no claim depends on Python's set iteration order). -/
def insertSet (l : List String) (x : String) : List String :=
  if l.contains x then l else l ++ [x]

abbrev Row := List (String × String)

/-- `harvest_emails_from_row`: all regex matches in all cells, lowercased;
NOTE the column set is shared by every address found in the row. -/
def harvest_emails_from_row (row : Row) : List String × List String :=
  row.foldl
    (fun acc cv =>
      (extractEmails cv.2).foldl
        (fun acc2 m =>
          let em := lowerStr m
          if em.data.contains '@' then (insertSet acc2.1 em, insertSet acc2.2 cv.1)
          else acc2)
        acc)
    ([], [])

/-! ### Exclusion filter -/

/-- A user-supplied pattern line (already `strip().lower()`-ed by the UI code):
its text, whether `re.compile` accepts it, and the `re.search` oracle. -/
structure RegexPat where
  raw : String
  valid : Bool
  search : String → Bool

structure Config where
  dateCol : Option String
  months : Nat
  useRole : Bool
  customPrefixes : List RegexPat
  useRegex : Bool

def rolePrefixes (cfg : Config) : List String :=
  if cfg.useRole then DEFAULT_ROLE_PREFIXES.map (fun p => lowerStr (stripStr p)) else []

/-- `lp == pref or lp.startswith(pref + "+") or lp.startswith(pref + ".")` -/
def litHit (lp pref : String) : Bool :=
  lp = pref || startsWithStr lp (pref ++ "+") || startsWithStr lp (pref ++ ".")

/-- Lazy evaluation of `any(re.search(patt, lp) for patt in custom_prefixes)`:
`none` models the `re.error` escaping when an invalid pattern is reached. -/
def regexAnyLazy (lp : String) : List RegexPat → Option Bool
  | [] => some false
  | p :: ps =>
    if p.valid then (if p.search lp then some true else regexAnyLazy lp ps)
    else none

def is_excluded_local (cfg : Config) (local_part : String) : Bool :=
  let lp := lowerStr local_part
  let roles := rolePrefixes cfg
  if !roles.isEmpty && roles.any (fun pref => litHit lp pref) then true
  else if !cfg.customPrefixes.isEmpty then
    if cfg.useRegex then
      match regexAnyLazy lp cfg.customPrefixes with
      | some b => b
      | none => cfg.customPrefixes.any (fun p => litHit lp p.raw)
    else cfg.customPrefixes.any (fun p => litHit lp p.raw)
  else false

/-! ### The processing loop -/

structure Rec where
  email : String
  nombre : String
  apellido : String
  dominio : String
  empresa : String
  pais : String
  ultimoEnvio : Option DateTime
  asuntoUltimo : String
deriving DecidableEq, Repr

structure ExcludedRow where
  email : String
  motivo : String
  filaOrigen : Nat
  columnasOrigen : String
deriving DecidableEq, Repr

structure PipeState where
  records : List (String × Rec)
  colsByEmail : List (String × List String)
  excluded : List ExcludedRow
deriving Repr

/-- `em.split("@", 1)`: `none` models the `ValueError` branch. -/
def splitAtAux : List Char → List Char → Option (String × String)
  | _, [] => none
  | acc, c :: rest =>
    if c = '@' then some (String.mk acc.reverse, String.mk rest)
    else splitAtAux (c :: acc) rest

def splitAtFirstAt (em : String) : Option (String × String) := splitAtAux [] em.data

/-- First sighting of an address: `records[em] = {...}`. -/
def newRec (em localPart domain : String) (sent : Option DateTime) (subject : String) : Rec :=
  let np := infer_name_parts localPart
  { email := em, nombre := np.1, apellido := np.2, dominio := lowerStr domain,
    empresa := prettify_company_from_domain domain,
    pais := infer_country_from_domain domain,
    ultimoEnvio := sent, asuntoUltimo := subject }

/-- Merge policy applied to an existing record (the `else` branch). -/
def mergeRec (prev : Rec) (localPart domain : String) (sent : Option DateTime)
    (subject : String) : Rec :=
  let np := infer_name_parts localPart
  let pais := infer_country_from_domain domain
  let p1 :=
    match sent with
    | none => prev
    | some s =>
      match prev.ultimoEnvio with
      | none => { prev with ultimoEnvio := some s, asuntoUltimo := subject }
      | some pt =>
        if dtLt pt s then { prev with ultimoEnvio := some s, asuntoUltimo := subject } else prev
  let p2 := if p1.nombre = "" && decide (np.1 ≠ "") then { p1 with nombre := np.1 } else p1
  let p3 := if p2.apellido = "" && decide (np.2 ≠ "") then { p2 with apellido := np.2 } else p2
  if p3.pais = "" && decide (pais ≠ "") then { p3 with pais := pais } else p3

/-- In-place dict value update (Python mutates `prev`, keeping dict order). -/
def updateAssoc (l : List (String × Rec)) (k : String) (v : Rec) : List (String × Rec) :=
  match l with
  | [] => []
  | (k', v') :: t => if k' = k then (k', v) :: t else (k', v') :: updateAssoc t k v

/-- `cols_by_email[em] |= set(cols)` on a `defaultdict(set)`. -/
def unionAt (l : List (String × List String)) (k : String) (cols : List String) :
    List (String × List String) :=
  match l with
  | [] => [(k, cols.foldl insertSet [])]
  | (k', s) :: t =>
    if k' = k then (k', cols.foldl insertSet s) :: t else (k', s) :: unionAt t k cols

def processEmail (cfg : Config) (idx : Nat) (sent : Option DateTime) (subject : String)
    (cols : List String) (st : PipeState) (em : String) : PipeState :=
  match splitAtFirstAt em with
  | none => st
  | some (localPart, domain) =>
    if is_excluded_local cfg localPart then
      { st with
        excluded := st.excluded ++
          [{ email := em, motivo := "Filtro de exclusión", filaOrigen := idx + 1,
             columnasOrigen := joinStr ";" (sortStrings cols) }] }
    else
      match st.records.lookup em with
      | none =>
        { st with
          records := st.records ++ [(em, newRec em localPart domain sent subject)],
          colsByEmail := unionAt st.colsByEmail em cols }
      | some prev =>
        { st with
          records := updateAssoc st.records em (mergeRec prev localPart domain sent subject),
          colsByEmail := unionAt st.colsByEmail em cols }

/-- `row[use_date]` (the selected date column is one of the dataframe's
columns, so the Python indexing never raises) parsed by `parse_date`. -/
def rowSent (cfg : Config) (row : Row) : Option DateTime :=
  match cfg.dateCol with
  | some dc => parse_date ((row.lookup dc).getD "")
  | none => none

/-- `row.get("Subject", "") or row.get("Asunto", "") or ""` -/
def rowSubject (row : Row) : String :=
  let a := (row.lookup "Subject").getD ""
  let b := (row.lookup "Asunto").getD ""
  if a ≠ "" then a else if b ≠ "" then b else ""

def processRow (cfg : Config) (st : PipeState) (idx : Nat) (row : Row) : PipeState :=
  let sent := rowSent cfg row
  let subject := rowSubject row
  let fc := harvest_emails_from_row row
  fc.1.foldl (processEmail cfg idx sent subject fc.2) st

def processRowsFrom (cfg : Config) : Nat → PipeState → List Row → PipeState
  | _, st, [] => st
  | idx, st, row :: rest => processRowsFrom cfg (idx + 1) (processRow cfg st idx row) rest

def initState : PipeState := ⟨[], [], []⟩

def processRows (cfg : Config) (rows : List Row) : PipeState :=
  processRowsFrom cfg 0 initState rows

/-! ### Finalisation, contacts table -/

structure Contact where
  email : String
  nombre : String
  apellido : String
  dominio : String
  empresa : String
  pais : String
  ultimoEnvio : String
  estadoCliente : String
  asuntoUltimo : String
  columnasOrigen : String
deriving DecidableEq, Repr

def finalizeContact (cutoff : DateTime) (colsBy : List (String × List String)) (em : String)
    (data : Rec) : Contact :=
  let lastStr := match data.ultimoEnvio with | some dt => fmtDateTime dt | none => ""
  let estado :=
    match data.ultimoEnvio with
    | some dt => if dtLe cutoff dt then "Cliente reciente" else "Cliente para seguimiento"
    | none => "Cliente para seguimiento"
  { email := data.email, nombre := data.nombre, apellido := data.apellido,
    dominio := data.dominio, empresa := data.empresa, pais := data.pais,
    ultimoEnvio := lastStr, estadoCliente := estado, asuntoUltimo := data.asuntoUltimo,
    columnasOrigen := joinStr ";" (sortStrings ((colsBy.lookup em).getD [])) }

/-- `cutoff = datetime.now() - timedelta(days=30*months)` and the contacts loop. -/
def buildContacts (now : DateTime) (months : Nat) (records : List (String × Rec))
    (colsBy : List (String × List String)) : List Contact :=
  let cutoff := subDays now (30 * months)
  records.map (fun p => finalizeContact cutoff colsBy p.1 p.2)

/-! ### Company rollup -/

structure Agg where
  dominio : String
  empresa : String
  pais : String
  contactos : List String
  totalEmails : Nat
  ultimo : Option DateTime
deriving Repr

structure CompanyRow where
  empresa : String
  dominio : String
  pais : String
  contactosUnicos : Nat
  totalEmails : Nat
  ultimoEnvio : String
deriving DecidableEq, Repr

def aggInit : Agg :=
  { dominio := "", empresa := "", pais := "", contactos := [], totalEmails := 0, ultimo := none }

def aggUpdate (a : Agg) (c : Contact) : Agg :=
  let a1 := { a with dominio := c.dominio, empresa := c.empresa }
  let a2 := if a1.pais = "" && decide (c.pais ≠ "") then { a1 with pais := c.pais } else a1
  let a3 := { a2 with totalEmails := a2.totalEmails + 1,
                      contactos := insertSet a2.contactos c.email }
  if c.ultimoEnvio ≠ "" then
    match parse_date c.ultimoEnvio with
    | some dt =>
      match a3.ultimo with
      | none => { a3 with ultimo := some dt }
      | some prev => if dtLt prev dt then { a3 with ultimo := some dt } else a3
    | none => a3
  else a3

/-- Upsert of one contact into the `(Empresa, Dominio)`-keyed `defaultdict`. -/
def aggFold (groups : List ((String × String) × Agg)) (c : Contact) :
    List ((String × String) × Agg) :=
  match groups with
  | [] => [((c.empresa, c.dominio), aggUpdate aggInit c)]
  | (k, a) :: t =>
    if k = (c.empresa, c.dominio) then (k, aggUpdate a c) :: t
    else (k, a) :: aggFold t c

def aggRow (ka : (String × String) × Agg) : CompanyRow :=
  { empresa := ka.1.1, dominio := ka.1.2, pais := ka.2.pais,
    contactosUnicos := ka.2.contactos.length, totalEmails := ka.2.totalEmails,
    ultimoEnvio := match ka.2.ultimo with | some dt => fmtDateTime dt | none => "" }

/-- `sort_values(["Empresa","Dominio"])`: Python tuple comparison on the two
string keys.  Group keys are pairwise distinct, so any comparison sort
produces this same unique order. -/
def rowLe (r1 r2 : CompanyRow) : Prop :=
  strLtB r1.empresa r2.empresa = true ∨
    (r1.empresa = r2.empresa ∧ strLeB r1.dominio r2.dominio = true)

instance : DecidableRel rowLe := fun r1 r2 => by
  unfold rowLe
  infer_instance

def companyRows (contacts : List Contact) : List CompanyRow :=
  let groups := contacts.foldl aggFold []
  List.insertionSort rowLe (groups.map aggRow)

/-! ### The whole pipeline -/

structure Output where
  contacts : List Contact
  companies : List CompanyRow
  excludedTab : List ExcludedRow
deriving Repr

def pipeline (cfg : Config) (now : DateTime) (rows : List Row) : Output :=
  let st := processRows cfg rows
  let contacts := buildContacts now cfg.months st.records st.colsByEmail
  ⟨contacts, companyRows contacts, st.excluded⟩

/-! ## Claim C1: the §8 scenario row -/

def cfgC1 : Config :=
  { dateCol := some "Sent", months := 6, useRole := true, customPrefixes := [],
    useRegex := false }

def nowC1 : DateTime := ⟨2024, 6, 1, 0, 0, 0⟩

def rowC1 : Row := [("To", "Maria.Perez@acme-corp.com.mx"), ("Sent", "2024-01-15 10:00:00")]

/-- Claim C1 counterexample: on the scenario row with lookback 6 months and
now = 2024-06-01, the pipeline's single contact has Empresa `"COM"` (the
second-to-last domain label of `acme-corp.com.mx` is `com`, not `acme-corp`)
and EstadoCliente `"Cliente reciente"` (the cutoff is 2023-12-04, before
2024-01-15), contradicting the claimed `"Acme Corp"` and follow-up label. -/
theorem C1_counterexample :
    (pipeline cfgC1 nowC1 [rowC1]).contacts.map (fun c => (c.empresa, c.estadoCliente)) =
      [("COM", "Cliente reciente")] ∧
    ("COM" : String) ≠ "Acme Corp" ∧
    ("Cliente reciente" : String) ≠ "Cliente para seguimiento" :=
  ⟨by decide, by decide, by decide⟩

/-- Claim C1 (amended): for the scenario row with the Sent column selected,
lookback = 6 months and now = 2024-06-01, the pipeline produces exactly one
contact with Nombre "Maria", Apellido "Perez", Pais "México" — but Empresa is
"COM" (the code's second-level-label approximation picks `com` from the
compound TLD) and EstadoCliente is the recent label, since the 180-day cutoff
2023-12-04 precedes the sent date 2024-01-15. -/
theorem C1_amended :
    (pipeline cfgC1 nowC1 [rowC1]).contacts =
      [{ email := "maria.perez@acme-corp.com.mx", nombre := "Maria", apellido := "Perez",
         dominio := "acme-corp.com.mx", empresa := "COM", pais := "México",
         ultimoEnvio := "2024-01-15 10:00:00", estadoCliente := "Cliente reciente",
         asuntoUltimo := "", columnasOrigen := "To" }] := by decide

/-! ## Claim C2: per-address source columns -/

def cfgC2 : Config :=
  { dateCol := none, months := 6, useRole := true, customPrefixes := [], useRegex := false }

def nowC2 : DateTime := ⟨2024, 1, 1, 0, 0, 0⟩

def rowC2 : Row := [("A", "x@aa.com"), ("B", "y@bb.com")]

/-- Claim C2 counterexample: in a row whose column "A" contains only
`x@aa.com` and whose column "B" contains only `y@bb.com`, the claim says
`x@aa.com`'s ColumnasOrigen is exactly `"A"`; the code pools one column set
per row, so both contacts get `"A;B"`. -/
theorem C2_counterexample :
    (pipeline cfgC2 nowC2 [rowC2]).contacts.map (fun c => (c.email, c.columnasOrigen)) =
      [("x@aa.com", "A;B"), ("y@bb.com", "A;B")] ∧
    ("A;B" : String) ≠ "A" :=
  ⟨by decide, by decide⟩

/-! ## Claim C4: recency classification -/

/-- Claim C4: with cutoff = now - 30*lookbackMonths days (the pipeline's
`buildContacts` passes exactly `subDays now (30 * months)` to
`finalizeContact`), a contact without a timestamp is labeled
"Cliente para seguimiento", and a contact with timestamp t is labeled
"Cliente reciente" iff cutoff ≤ t — an inclusive boundary. -/
theorem C4_recency (now : DateTime) (months : Nat) (colsBy : List (String × List String))
    (em : String) (data : Rec) :
    (data.ultimoEnvio = none →
      (finalizeContact (subDays now (30 * months)) colsBy em data).estadoCliente =
        "Cliente para seguimiento") ∧
    (∀ t, data.ultimoEnvio = some t →
      ((finalizeContact (subDays now (30 * months)) colsBy em data).estadoCliente =
          "Cliente reciente" ↔ dtLe (subDays now (30 * months)) t = true)) := by
  constructor
  · intro h
    simp [finalizeContact, h]
  · intro t ht
    by_cases hle : dtLe (subDays now (30 * months)) t = true
    · simp [finalizeContact, ht, hle]
    · simp only [finalizeContact, ht]
      rw [if_neg hle]
      exact iff_of_false (by decide) hle

def recC4 : Rec :=
  { email := "a@b.com", nombre := "A", apellido := "", dominio := "b.com", empresa := "B",
    pais := "", ultimoEnvio := some ⟨2023, 12, 4, 0, 0, 0⟩, asuntoUltimo := "s" }

def nowC4 : DateTime := ⟨2024, 6, 1, 0, 0, 0⟩

/-- Claim C4 witness: with now = 2024-06-01 and 6 months lookback the cutoff
is exactly 2023-12-04 00:00:00, and a contact whose timestamp equals the
cutoff is classified "Cliente reciente" (inclusive boundary). -/
theorem C4_witness :
    recC4.ultimoEnvio = some ⟨2023, 12, 4, 0, 0, 0⟩ ∧
    subDays nowC4 (30 * 6) = ⟨2023, 12, 4, 0, 0, 0⟩ ∧
    (finalizeContact (subDays nowC4 (30 * 6)) [] "a@b.com" recC4).estadoCliente =
      "Cliente reciente" :=
  ⟨rfl, by decide,
    ((C4_recency nowC4 6 [] "a@b.com" recC4).2 ⟨2023, 12, 4, 0, 0, 0⟩ rfl).mpr (by decide)⟩

/-! ## Claim C6: company label from organisational suffix -/

/-- Modelled from the claim's words (C6 as stated): for a non-personal domain
whose second-level label ends with an organisational suffix, the label is the
capitalised remaining prefix (fully uppercased when at most 3 characters)
followed by the capitalised suffix; just the capitalised suffix when the
remaining prefix is empty.  `none` when the claim's premise does not apply. -/
def claimSuffixLabel (domain : String) : Option String :=
  if PERSONAL_DOMAINS.contains (lowerStr domain) then none
  else
    match COMPANY_SUFFIXES.find?
        (fun suf => endsWithStr (split_domain (lowerStr domain)).1 suf) with
    | none => none
    | some suf =>
      if dropRightStr (split_domain (lowerStr domain)).1 suf.length = "" then
        some (pyCapitalize suf)
      else
        some ((if (dropRightStr (split_domain (lowerStr domain)).1 suf.length).data.length ≤ 3
               then upperStr (dropRightStr (split_domain (lowerStr domain)).1 suf.length)
               else pyCapitalize (dropRightStr (split_domain (lowerStr domain)).1 suf.length)) ++
          " " ++ pyCapitalize suf)

/-- Claim C6 counterexample: for `acme-corp.com` the second-level label
`acme-corp` ends with the suffix `corp` with non-empty remaining prefix
`acme-`, so the claim prescribes `"Acme- Corp"`; the code additionally
requires the prefix to end in a letter (`core[-1].isalpha()`) and therefore
produces just `"Corp"`. -/
theorem C6_counterexample :
    claimSuffixLabel "acme-corp.com" = some "Acme- Corp" ∧
    prettify_company_from_domain "acme-corp.com" = "Corp" ∧
    ("Corp" : String) ≠ "Acme- Corp" :=
  ⟨by decide, by decide, by decide⟩

/-- Modelled from the claim's words as amended: the prefix-plus-suffix form
applies only when the remaining prefix is non-empty AND ends in an alphabetic
character; otherwise the label is just the capitalised suffix. -/
def claimSuffixLabelAmended (domain : String) : Option String :=
  if PERSONAL_DOMAINS.contains (lowerStr domain) then none
  else
    match COMPANY_SUFFIXES.find?
        (fun suf => endsWithStr (split_domain (lowerStr domain)).1 suf) with
    | none => none
    | some suf =>
      match (dropRightStr (split_domain (lowerStr domain)).1 suf.length).data.getLast? with
      | some ch =>
        if ch.isAlpha then
          some ((if (dropRightStr (split_domain (lowerStr domain)).1 suf.length).data.length ≤ 3
                 then upperStr (dropRightStr (split_domain (lowerStr domain)).1 suf.length)
                 else pyCapitalize (dropRightStr (split_domain (lowerStr domain)).1 suf.length)) ++
            " " ++ pyCapitalize suf)
        else some (pyCapitalize suf)
      | none => some (pyCapitalize suf)

/-- Let-free unfolding of `prettify_company_from_domain` (definitional). -/
theorem prettify_unfold (domain : String) :
    prettify_company_from_domain domain =
      (if PERSONAL_DOMAINS.contains (lowerStr domain) then "Particular"
       else
        match COMPANY_SUFFIXES.find?
            (fun suf => endsWithStr (split_domain (lowerStr domain)).1 suf) with
        | some suf =>
          stripStr
            (if dropRightStr (split_domain (lowerStr domain)).1 suf.length ≠ "" &&
                (match (dropRightStr (split_domain (lowerStr domain)).1 suf.length).data.getLast?
                 with
                 | some ch => ch.isAlpha
                 | none => false) then
               (if (dropRightStr (split_domain (lowerStr domain)).1 suf.length).data.length ≤ 3
                then upperStr (dropRightStr (split_domain (lowerStr domain)).1 suf.length)
                else pyCapitalize (dropRightStr (split_domain (lowerStr domain)).1 suf.length)) ++
                 " " ++ pyCapitalize suf
             else pyCapitalize suf)
        | none =>
          if (split_domain (lowerStr domain)).1.data.length ≤ 3 then
            upperStr (split_domain (lowerStr domain)).1
          else pyCapitalize (split_domain (lowerStr domain)).1) := rfl

/-- Claim C6 (amended): whenever the amended claim prescribes a label for a
domain, the code produces exactly that label (stripped — the code applies
`.strip()` to the composed label). -/
theorem C6_amended (domain label : String)
    (h : claimSuffixLabelAmended domain = some label) :
    prettify_company_from_domain domain = stripStr label := by
  rw [prettify_unfold]
  unfold claimSuffixLabelAmended at h
  by_cases hP : PERSONAL_DOMAINS.contains (lowerStr domain) = true
  · rw [if_pos hP] at h
    exact absurd h (by simp)
  · rw [if_neg hP] at h
    rw [if_neg hP]
    cases hF : COMPANY_SUFFIXES.find?
        (fun suf => endsWithStr (split_domain (lowerStr domain)).1 suf) with
    | none =>
      simp only [hF] at h
      exact absurd h (by simp)
    | some suf =>
      simp only [hF] at h ⊢
      cases hL : (dropRightStr (split_domain (lowerStr domain)).1 suf.length).data.getLast? with
      | none =>
        simp only [hL, Option.some.injEq] at h ⊢
        rw [if_neg (by simp)]
        rw [h]
      | some ch =>
        simp only [hL] at h ⊢
        have hne : dropRightStr (split_domain (lowerStr domain)).1 suf.length ≠ "" := by
          intro he
          have hdata : (dropRightStr (split_domain (lowerStr domain)).1 suf.length).data =
              ([] : List Char) := by rw [he]
          rw [hdata] at hL
          exact absurd hL (by simp)
        by_cases hA : ch.isAlpha = true
        · rw [if_pos hA] at h
          rw [if_pos (by simp [hne, hA])]
          simp only [Option.some.injEq] at h
          rw [h]
        · rw [if_neg hA] at h
          have hA' : ch.isAlpha = false := by
            cases hAb : ch.isAlpha
            · rfl
            · exact absurd hAb hA
          rw [if_neg (by simp [hA'])]
          simp only [Option.some.injEq] at h
          rw [h]

/-- Claim C6 witness: `acmecorp.com` has second-level label `acmecorp`,
suffix `corp`, prefix `acme` ending in a letter; both the amended claim and
the code give `"Acme Corp"`. -/
theorem C6_witness :
    claimSuffixLabelAmended "acmecorp.com" = some "Acme Corp" ∧
    prettify_company_from_domain "acmecorp.com" = stripStr "Acme Corp" :=
  ⟨by decide, C6_amended "acmecorp.com" "Acme Corp" (by decide)⟩

/-! ## Claim C7: regex custom patterns and the fallback -/

/-- The role-list part of the exclusion filter (`lp` already lowercased). -/
def roleListHit (cfg : Config) (lp : String) : Bool :=
  !(rolePrefixes cfg).isEmpty && (rolePrefixes cfg).any (fun pref => litHit lp pref)

/-- Modelled from the claim's words (C7 as stated): when `useRegex` is on, the
custom-list check falls back to literal-prefix matching whenever ANY custom
pattern is syntactically invalid, and otherwise applies every pattern as a
regex search; the overall filter is role-check OR custom-check. -/
def claimCustomCheck (lp : String) (pats : List RegexPat) : Bool :=
  if pats.any (fun p => !p.valid) then pats.any (fun p => litHit lp p.raw)
  else pats.any (fun p => p.search lp)

def claimIsExcludedRegex (cfg : Config) (local_part : String) : Bool :=
  roleListHit cfg (lowerStr local_part) ||
    (!cfg.customPrefixes.isEmpty && claimCustomCheck (lowerStr local_part) cfg.customPrefixes)

/-- Pattern `"a"`: compiles, and `re.search("a", lp)` matches iff `lp`
contains the character `a`. -/
def patLetterA : RegexPat := ⟨"a", true, fun lp => lp.data.contains 'a'⟩

/-- Pattern `"("`: `re.compile` raises `re.error`; its search oracle is never
consulted. -/
def patUnbalanced : RegexPat := ⟨"(", false, fun _ => false⟩

def cfgC7 : Config :=
  { dateCol := none, months := 6, useRole := false, customPrefixes := [patLetterA, patUnbalanced],
    useRegex := true }

/-- Claim C7 counterexample: with custom patterns `["a", "("]` (the second
invalid) and local-part `"abc"`, the claim prescribes literal fallback for the
whole custom list — excluding nothing — but the code's lazy `any` finds the
match of the valid pattern `"a"` before ever compiling `"("`, so the address
IS excluded and no fallback happens. -/
theorem C7_counterexample :
    is_excluded_local cfgC7 "abc" = true ∧ claimIsExcludedRegex cfgC7 "abc" = false :=
  ⟨rfl, rfl⟩

theorem regexAnyLazy_all_valid (lp : String) (ps : List RegexPat)
    (h : ∀ p ∈ ps, p.valid = true) :
    regexAnyLazy lp ps = some (ps.any (fun p => p.search lp)) := by
  induction ps with
  | nil => rfl
  | cons p ps ih =>
    have hp : p.valid = true := h p (by simp)
    unfold regexAnyLazy
    rw [if_pos hp]
    by_cases hs : p.search lp = true
    · simp [hs]
    · have hs' : p.search lp = false := by
        cases hb : p.search lp
        · rfl
        · exact absurd hb hs
      rw [if_neg hs]
      rw [ih (fun q hq => h q (by simp [hq]))]
      simp [hs']

theorem regexAnyLazy_reach_invalid (lp : String) (pre : List RegexPat) (bad : RegexPat)
    (rest : List RegexPat) (hbad : bad.valid = false)
    (hpre : ∀ p ∈ pre, p.valid = true ∧ p.search lp = false) :
    regexAnyLazy lp (pre ++ bad :: rest) = none := by
  induction pre with
  | nil =>
    unfold regexAnyLazy
    simp [hbad]
  | cons p pre ih =>
    have hp := hpre p (by simp)
    unfold regexAnyLazy
    simp only [List.cons_append]
    rw [if_pos hp.1, if_neg (by simp [hp.2])]
    exact ih (fun q hq => hpre q (by simp [hq]))

theorem regexAnyLazy_early_match (lp : String) (pre : List RegexPat) (p : RegexPat)
    (rest : List RegexPat) (hpre : ∀ q ∈ pre, q.valid = true)
    (hv : p.valid = true) (hs : p.search lp = true) :
    regexAnyLazy lp (pre ++ p :: rest) = some true := by
  induction pre with
  | nil =>
    unfold regexAnyLazy
    simp [hv, hs]
  | cons q pre ih =>
    have hq := hpre q (by simp)
    unfold regexAnyLazy
    simp only [List.cons_append]
    rw [if_pos hq]
    by_cases hqs : q.search lp = true
    · simp [hqs]
    · rw [if_neg hqs]
      exact ih (fun r hr => hpre r (by simp [hr]))

/-- Structural form of `is_excluded_local` (definitional). -/
theorem is_excluded_local_unfold (cfg : Config) (local_part : String) :
    is_excluded_local cfg local_part =
      (if roleListHit cfg (lowerStr local_part) = true then true
       else if !cfg.customPrefixes.isEmpty then
         (if cfg.useRegex then
           (match regexAnyLazy (lowerStr local_part) cfg.customPrefixes with
            | some b => b
            | none => cfg.customPrefixes.any (fun p => litHit (lowerStr local_part) p.raw))
          else cfg.customPrefixes.any (fun p => litHit (lowerStr local_part) p.raw))
       else false) := rfl

/-- Claim C7 (amended): when `useRegex` is on — (1) if every custom pattern is
valid, the filter is role-check OR regex-search over the custom list (no
fallback); (2) if an invalid pattern is REACHED (every pattern before it is
valid and fails to match), the custom list falls back to literal-prefix
matching while the role check is unaffected; (3) if some valid pattern
preceded only by valid patterns matches, the address is excluded outright —
a later invalid pattern never triggers the fallback. -/
theorem C7_amended (cfg : Config) (lp : String) (hreg : cfg.useRegex = true) :
    ((∀ p ∈ cfg.customPrefixes, p.valid = true) →
      is_excluded_local cfg lp =
        (roleListHit cfg (lowerStr lp) ||
          cfg.customPrefixes.any (fun p => p.search (lowerStr lp)))) ∧
    (∀ pre bad rest, cfg.customPrefixes = pre ++ bad :: rest → bad.valid = false →
      (∀ p ∈ pre, p.valid = true ∧ p.search (lowerStr lp) = false) →
      is_excluded_local cfg lp =
        (roleListHit cfg (lowerStr lp) ||
          cfg.customPrefixes.any (fun p => litHit (lowerStr lp) p.raw))) ∧
    (∀ pre p rest, cfg.customPrefixes = pre ++ p :: rest → (∀ q ∈ pre, q.valid = true) →
      p.valid = true → p.search (lowerStr lp) = true →
      is_excluded_local cfg lp = true) := by
  refine ⟨?_, ?_, ?_⟩
  · intro hall
    rw [is_excluded_local_unfold]
    by_cases hrole : roleListHit cfg (lowerStr lp) = true
    · simp [hrole]
    · rw [if_neg hrole]
      have hrole' : roleListHit cfg (lowerStr lp) = false := by
        cases hb : roleListHit cfg (lowerStr lp)
        · rfl
        · exact absurd hb hrole
      rw [hrole']
      cases hemp : cfg.customPrefixes with
      | nil => simp [hemp]
      | cons q qs =>
        rw [← hemp]
        rw [if_pos (by simp [hemp]), if_pos hreg]
        rw [regexAnyLazy_all_valid (lowerStr lp) cfg.customPrefixes hall]
        simp
  · intro pre bad rest hsplit hbad hpre
    rw [is_excluded_local_unfold]
    by_cases hrole : roleListHit cfg (lowerStr lp) = true
    · simp [hrole]
    · rw [if_neg hrole]
      have hrole' : roleListHit cfg (lowerStr lp) = false := by
        cases hb : roleListHit cfg (lowerStr lp)
        · rfl
        · exact absurd hb hrole
      rw [hrole']
      rw [if_pos (by simp [hsplit]), if_pos hreg]
      rw [hsplit, regexAnyLazy_reach_invalid (lowerStr lp) pre bad rest hbad hpre]
      simp [hsplit]
  · intro pre p rest hsplit hpre hv hs
    rw [is_excluded_local_unfold]
    by_cases hrole : roleListHit cfg (lowerStr lp) = true
    · simp [hrole]
    · rw [if_neg hrole]
      rw [if_pos (by simp [hsplit]), if_pos hreg]
      rw [hsplit, regexAnyLazy_early_match (lowerStr lp) pre p rest hpre hv hs]

/-- Pattern `"x"`: compiles; `re.search("x", lp)` matches iff `lp` contains
the character `x`. -/
def patLetterX : RegexPat := ⟨"x", true, fun lp => lp.data.contains 'x'⟩

def cfgC7W : Config :=
  { dateCol := none, months := 6, useRole := false, customPrefixes := [patLetterX],
    useRegex := true }

/-- Claim C7 witness: with the single valid pattern `"x"`, the filter equals
role-check OR regex search, and it excludes `"axb"`. -/
theorem C7_witness :
    cfgC7W.useRegex = true ∧
    is_excluded_local cfgC7W "axb" =
      (roleListHit cfgC7W (lowerStr "axb") ||
        cfgC7W.customPrefixes.any (fun p => p.search (lowerStr "axb"))) ∧
    is_excluded_local cfgC7W "axb" = true :=
  ⟨rfl, (C7_amended cfgC7W "axb" rfl).1 (by decide), rfl⟩

/-! ## Harvest lemmas (shared by C2, C3, C5, C9) -/

theorem mem_insertSet {l : List String} {x y : String} :
    y ∈ insertSet l x ↔ y ∈ l ∨ y = x := by
  unfold insertSet
  by_cases h : l.contains x = true
  · rw [if_pos h]
    have hx : x ∈ l := by simpa using h
    constructor
    · exact fun hy => Or.inl hy
    · rintro (hy | rfl)
      · exact hy
      · exact hx
  · rw [if_neg h]
    simp

theorem insertSet_nodup {l : List String} {x : String} (h : l.Nodup) :
    (insertSet l x).Nodup := by
  unfold insertSet
  by_cases hc : l.contains x = true
  · rwa [if_pos hc]
  · rw [if_neg hc]
    have hx : x ∉ l := by
      intro hmem
      exact hc (by simpa using hmem)
    simp [List.nodup_append, h, hx]

/-- One row cell's inner fold in `harvest_emails_from_row`. -/
def harvestCell (colName : String) (acc : List String × List String) (ms : List String) :
    List String × List String :=
  ms.foldl
    (fun acc2 m =>
      if (lowerStr m).data.contains '@' then
        (insertSet acc2.1 (lowerStr m), insertSet acc2.2 colName)
      else acc2)
    acc

theorem harvest_eq_foldCells (row : Row) :
    harvest_emails_from_row row =
      row.foldl (fun acc cv => harvestCell cv.1 acc (extractEmails cv.2)) ([], []) := rfl

theorem harvestCell_emails_iff (colName : String) (ms : List String)
    (acc : List String × List String) (em : String) :
    em ∈ (harvestCell colName acc ms).1 ↔
      em ∈ acc.1 ∨ ∃ m ∈ ms, em = lowerStr m ∧ (lowerStr m).data.contains '@' = true := by
  induction ms generalizing acc with
  | nil => simp [harvestCell]
  | cons m ms ih =>
    unfold harvestCell
    rw [List.foldl_cons]
    by_cases hc : (lowerStr m).data.contains '@' = true
    · rw [if_pos hc]
      rw [show (ms.foldl _ _) = harvestCell colName (insertSet acc.1 (lowerStr m),
        insertSet acc.2 colName) ms from rfl]
      rw [ih]
      simp only [mem_insertSet, List.mem_cons]
      constructor
      · rintro ((hy | rfl) | ⟨m', hm', he, hc'⟩)
        · exact Or.inl hy
        · exact Or.inr ⟨m, Or.inl rfl, rfl, hc⟩
        · exact Or.inr ⟨m', Or.inr hm', he, hc'⟩
      · rintro (hy | ⟨m', (rfl | hm'), he, hc'⟩)
        · exact Or.inl (Or.inl hy)
        · exact Or.inl (Or.inr he)
        · exact Or.inr ⟨m', hm', he, hc'⟩
    · rw [if_neg hc]
      rw [show (ms.foldl _ _) = harvestCell colName acc ms from rfl]
      rw [ih]
      constructor
      · rintro (hy | ⟨m', hm', he, hc'⟩)
        · exact Or.inl hy
        · exact Or.inr ⟨m', List.mem_cons_of_mem _ hm', he, hc'⟩
      · rintro (hy | ⟨m', hm', he, hc'⟩)
        · exact Or.inl hy
        · rcases List.mem_cons.mp hm' with rfl | hm''
          · exact absurd (he ▸ hc') hc
          · exact Or.inr ⟨m', hm'', he, hc'⟩

theorem harvestCell_cols_iff (colName : String) (ms : List String)
    (acc : List String × List String) (col : String) :
    col ∈ (harvestCell colName acc ms).2 ↔
      col ∈ acc.2 ∨ (col = colName ∧ ∃ m ∈ ms, (lowerStr m).data.contains '@' = true) := by
  induction ms generalizing acc with
  | nil => simp [harvestCell]
  | cons m ms ih =>
    unfold harvestCell
    rw [List.foldl_cons]
    by_cases hc : (lowerStr m).data.contains '@' = true
    · rw [if_pos hc]
      rw [show (ms.foldl _ _) = harvestCell colName (insertSet acc.1 (lowerStr m),
        insertSet acc.2 colName) ms from rfl]
      rw [ih]
      simp only [mem_insertSet, List.mem_cons]
      constructor
      · rintro ((hy | rfl) | ⟨rfl, m', hm', hc'⟩)
        · exact Or.inl hy
        · exact Or.inr ⟨rfl, m, Or.inl rfl, hc⟩
        · exact Or.inr ⟨rfl, m', Or.inr hm', hc'⟩
      · rintro (hy | ⟨rfl, m', (rfl | hm'), hc'⟩)
        · exact Or.inl (Or.inl hy)
        · exact Or.inl (Or.inr rfl)
        · exact Or.inr ⟨rfl, m', hm', hc'⟩
    · rw [if_neg hc]
      rw [show (ms.foldl _ _) = harvestCell colName acc ms from rfl]
      rw [ih]
      constructor
      · rintro (hy | ⟨rfl, m', hm', hc'⟩)
        · exact Or.inl hy
        · exact Or.inr ⟨rfl, m', List.mem_cons_of_mem _ hm', hc'⟩
      · rintro (hy | ⟨rfl, m', hm', hc'⟩)
        · exact Or.inl hy
        · rcases List.mem_cons.mp hm' with rfl | hm''
          · exact absurd hc' hc
          · exact Or.inr ⟨rfl, m', hm'', hc'⟩

theorem harvestCell_nodup (colName : String) (ms : List String)
    (acc : List String × List String) (h1 : acc.1.Nodup) (h2 : acc.2.Nodup) :
    (harvestCell colName acc ms).1.Nodup ∧ (harvestCell colName acc ms).2.Nodup := by
  induction ms generalizing acc with
  | nil => exact ⟨h1, h2⟩
  | cons m ms ih =>
    unfold harvestCell
    rw [List.foldl_cons]
    by_cases hc : (lowerStr m).data.contains '@' = true
    · rw [if_pos hc]
      exact ih _ (insertSet_nodup h1) (insertSet_nodup h2)
    · rw [if_neg hc]
      exact ih _ h1 h2

theorem harvest_emails_iff (row : Row) (em : String) :
    em ∈ (harvest_emails_from_row row).1 ↔
      ∃ cv ∈ row, ∃ m ∈ extractEmails cv.2,
        em = lowerStr m ∧ (lowerStr m).data.contains '@' = true := by
  rw [harvest_eq_foldCells]
  have main : ∀ (r : Row) (acc : List String × List String),
      em ∈ (r.foldl (fun acc cv => harvestCell cv.1 acc (extractEmails cv.2)) acc).1 ↔
        em ∈ acc.1 ∨ ∃ cv ∈ r, ∃ m ∈ extractEmails cv.2,
          em = lowerStr m ∧ (lowerStr m).data.contains '@' = true := by
    intro r
    induction r with
    | nil => simp
    | cons cv r ih =>
      intro acc
      rw [List.foldl_cons, ih, harvestCell_emails_iff]
      constructor
      · rintro ((hy | ⟨m, hm, he, hc⟩) | ⟨cv', hcv', m, hm, he, hc⟩)
        · exact Or.inl hy
        · exact Or.inr ⟨cv, List.mem_cons_self _ _, m, hm, he, hc⟩
        · exact Or.inr ⟨cv', List.mem_cons_of_mem _ hcv', m, hm, he, hc⟩
      · rintro (hy | ⟨cv', hcv', m, hm, he, hc⟩)
        · exact Or.inl (Or.inl hy)
        · rcases List.mem_cons.mp hcv' with rfl | hcv''
          · exact Or.inl (Or.inr ⟨m, hm, he, hc⟩)
          · exact Or.inr ⟨cv', hcv'', m, hm, he, hc⟩
  rw [main row ([], [])]
  simp

theorem harvest_cols_iff (row : Row) (col : String) :
    col ∈ (harvest_emails_from_row row).2 ↔
      ∃ cv ∈ row, col = cv.1 ∧ ∃ m ∈ extractEmails cv.2,
        (lowerStr m).data.contains '@' = true := by
  rw [harvest_eq_foldCells]
  have main : ∀ (r : Row) (acc : List String × List String),
      col ∈ (r.foldl (fun acc cv => harvestCell cv.1 acc (extractEmails cv.2)) acc).2 ↔
        col ∈ acc.2 ∨ ∃ cv ∈ r, col = cv.1 ∧ ∃ m ∈ extractEmails cv.2,
          (lowerStr m).data.contains '@' = true := by
    intro r
    induction r with
    | nil => simp
    | cons cv r ih =>
      intro acc
      rw [List.foldl_cons, ih, harvestCell_cols_iff]
      constructor
      · rintro ((hy | ⟨rfl, m, hm, hc⟩) | ⟨cv', hcv', he, m, hm, hc⟩)
        · exact Or.inl hy
        · exact Or.inr ⟨cv, List.mem_cons_self _ _, rfl, m, hm, hc⟩
        · exact Or.inr ⟨cv', List.mem_cons_of_mem _ hcv', he, m, hm, hc⟩
      · rintro (hy | ⟨cv', hcv', he, m, hm, hc⟩)
        · exact Or.inl (Or.inl hy)
        · rcases List.mem_cons.mp hcv' with rfl | hcv''
          · exact Or.inl (Or.inr ⟨he, m, hm, hc⟩)
          · exact Or.inr ⟨cv', hcv'', he, m, hm, hc⟩
  rw [main row ([], [])]
  simp

theorem harvest_nodup (row : Row) :
    (harvest_emails_from_row row).1.Nodup ∧ (harvest_emails_from_row row).2.Nodup := by
  rw [harvest_eq_foldCells]
  have main : ∀ (r : Row) (acc : List String × List String), acc.1.Nodup → acc.2.Nodup →
      (r.foldl (fun acc cv => harvestCell cv.1 acc (extractEmails cv.2)) acc).1.Nodup ∧
      (r.foldl (fun acc cv => harvestCell cv.1 acc (extractEmails cv.2)) acc).2.Nodup := by
    intro r
    induction r with
    | nil => exact fun acc h1 h2 => ⟨h1, h2⟩
    | cons cv r ih =>
      intro acc h1 h2
      rw [List.foldl_cons]
      have hr := harvestCell_nodup cv.1 (extractEmails cv.2) acc h1 h2
      exact ih _ hr.1 hr.2
  exact main row ([], []) List.nodup_nil List.nodup_nil

/-! ## Claim C9: every harvested address contains an `@` -/

theorem tryMatchAt_contains {cs : List Char} {em : String} {rem : List Char}
    (h : tryMatchAt cs = some (em, rem)) : em.data.contains '@' = true := by
  unfold tryMatchAt at h
  by_cases hloc : cs.takeWhile isLocalChar = []
  · rw [if_pos hloc] at h
    exact absurd h (by simp)
  · rw [if_neg hloc] at h
    cases hrest : cs.dropWhile isLocalChar with
    | nil =>
      simp only [hrest] at h
      exact absurd h (by simp)
    | cons a rest2 =>
      simp only [hrest] at h
      by_cases ha : a = '@'
      · rw [if_pos ha] at h
        cases hbd : bestDotSplit (rest2.takeWhile isDomainChar) with
        | none =>
          simp only [hbd] at h
          exact absurd h (by simp)
        | some pr =>
          rcases pr with ⟨pre, post⟩
          simp only [hbd] at h
          have hem : em = String.mk (cs.takeWhile isLocalChar ++
              '@' :: (pre ++ '.' :: post.tail.takeWhile Char.isAlpha)) := by
            cases h
            rfl
          rw [hem]
          simp
      · rw [if_neg ha] at h
        exact absurd h (by simp)

theorem mem_scanEmailsAux {fuel : Nat} {cs : List Char} {em : String}
    (h : em ∈ scanEmailsAux fuel cs) : em.data.contains '@' = true := by
  induction fuel generalizing cs with
  | zero => simp [scanEmailsAux] at h
  | succ fuel ih =>
    cases cs with
    | nil => simp [scanEmailsAux] at h
    | cons c rest =>
      unfold scanEmailsAux at h
      cases htm : tryMatchAt (c :: rest) with
      | none =>
        rw [htm] at h
        exact ih h
      | some pr =>
        rcases pr with ⟨em', rem⟩
        rw [htm] at h
        rcases List.mem_cons.mp h with rfl | h'
        · exact tryMatchAt_contains htm
        · exact ih h'

theorem splitAtAux_of_contains {cs : List Char} (acc : List Char) (h : '@' ∈ cs) :
    ∃ l d, splitAtAux acc cs = some (l, d) := by
  induction cs generalizing acc with
  | nil => simp at h
  | cons c rest ih =>
    unfold splitAtAux
    by_cases hc : c = '@'
    · rw [if_pos hc]
      exact ⟨_, _, rfl⟩
    · rw [if_neg hc]
      rcases List.mem_cons.mp h with heq | hmem

      · exact absurd heq.symm hc
      · exact ih _ hmem

/-- Claim C9: the harvesting regex guarantees the presence of `@` — every
match produced by the scanner contains `@`, every address harvested from a
row contains `@`, and therefore `em.split("@", 1)` always succeeds on a
harvested address: the silent-discard branch is unreachable. -/
theorem C9_split_always_succeeds :
    (∀ (s : String) (m : String), m ∈ extractEmails s → m.data.contains '@' = true) ∧
    (∀ (row : Row) (em : String), em ∈ (harvest_emails_from_row row).1 →
      ∃ l d, splitAtFirstAt em = some (l, d)) := by
  constructor
  · intro s m hm
    exact mem_scanEmailsAux hm
  · intro row em hem
    rcases (harvest_emails_iff row em).mp hem with ⟨cv, _, m, _, rfl, hc⟩
    have hmem : '@' ∈ (lowerStr m).data := by simpa using hc
    exact splitAtAux_of_contains [] hmem

/-- Claim C9 witness: a concrete harvested address splits successfully. -/
theorem C9_witness :
    ("x@aa.com" : String) ∈ (harvest_emails_from_row [("A", "x@aa.com")]).1 ∧
    splitAtFirstAt "x@aa.com" ≠ none :=
  ⟨by decide, by
    rcases C9_split_always_succeeds.2 [("A", "x@aa.com")] "x@aa.com" (by decide)
      with ⟨l, d, h⟩
    rw [h]
    simp⟩

/-! ## Order lemmas for `dtLt` -/

theorem dtLt_iff (a b : DateTime) :
    dtLt a b = true ↔
      (a.year < b.year ∨ (a.year = b.year ∧ (a.month < b.month ∨ (a.month = b.month ∧
        (a.day < b.day ∨ (a.day = b.day ∧ (a.hour < b.hour ∨ (a.hour = b.hour ∧
          (a.minute < b.minute ∨ (a.minute = b.minute ∧ a.second < b.second)))))))))) := by
  unfold dtLt
  simp [Bool.or_eq_true, Bool.and_eq_true, decide_eq_true_eq]

theorem dtLt_irrefl (a : DateTime) : dtLt a a = false := by
  cases h : dtLt a a
  · rfl
  · exfalso
    have := (dtLt_iff a a).mp h
    omega

theorem dtLt_trans {a b c : DateTime} (h1 : dtLt a b = true) (h2 : dtLt b c = true) :
    dtLt a c = true := by
  rw [dtLt_iff] at h1 h2 ⊢
  omega

theorem dtLe_refl (a : DateTime) : dtLe a a = true := by
  unfold dtLe
  rw [dtLt_irrefl]
  rfl

theorem dtLe_of_not_lt {a b : DateTime} (h : dtLt a b = false) : dtLe b a = true := by
  unfold dtLe
  rw [h]
  rfl

theorem dtLe_iff_not_lt {a b : DateTime} : dtLe a b = true ↔ dtLt b a = false := by
  unfold dtLe
  cases h : dtLt b a <;> simp

theorem dtLe_trans_lt {t' pt s : DateTime} (h1 : dtLe t' pt = true) (h2 : dtLt pt s = true) :
    dtLe t' s = true := by
  rw [dtLe_iff_not_lt] at h1 ⊢
  cases h : dtLt s t'
  · rfl
  · exfalso
    have := dtLt_trans h2 h
    rw [this] at h1
    exact Bool.noConfusion h1

/-! ## Association-list lemmas (records, colsByEmail) -/

theorem lookup_append_single (l : List (String × Rec)) (k : String) (v : Rec) (em : String) :
    (l ++ [(k, v)]).lookup em =
      (match l.lookup em with
       | some w => some w
       | none => if em = k then some v else none) := by
  induction l with
  | nil =>
    by_cases h : em = k
    · simp only [List.nil_append, List.lookup]
      rw [show (em == k) = true by simp [h]]
      simp [h]
    · simp only [List.nil_append, List.lookup]
      rw [show (em == k) = false by simp [h]]
      simp [h]
  | cons p t ih =>
    rcases p with ⟨k', v'⟩
    by_cases h : em = k'
    · simp only [List.cons_append, List.lookup]
      rw [show (em == k') = true by simp [h]]
    · simp only [List.cons_append, List.lookup]
      rw [show (em == k') = false by simp [h]]
      exact ih

theorem lookup_updateAssoc (l : List (String × Rec)) (k : String) (v : Rec) (em : String) :
    (updateAssoc l k v).lookup em =
      (if em = k then (match l.lookup k with | some _ => some v | none => none)
       else l.lookup em) := by
  induction l with
  | nil =>
    by_cases h : em = k
    · simp [updateAssoc, List.lookup, h]
    · simp [updateAssoc, List.lookup, h]
  | cons p t ih =>
    rcases p with ⟨k', v'⟩
    unfold updateAssoc
    by_cases hk : k' = k
    · subst hk
      rw [if_pos rfl]
      by_cases h : em = k'
      · subst h
        simp [List.lookup]
      · rw [if_neg h]
        simp only [List.lookup]
        rw [show (em == k') = false by simp [h]]
    · rw [if_neg hk]
      by_cases h : em = k'
      · subst h
        rw [if_neg hk]
        simp [List.lookup]
      · simp only [List.lookup]
        rw [show (em == k') = false by simp [h]]
        rw [ih]
        by_cases hek : em = k
        · rw [if_pos hek, if_pos hek]
          simp only [List.lookup]
          rw [show (k == k') = false by
            have : ¬(k = k') := fun he => hk he.symm
            simp [this]]
        · rw [if_neg hek, if_neg hek]

theorem keys_updateAssoc (l : List (String × Rec)) (k : String) (v : Rec) :
    (updateAssoc l k v).map Prod.fst = l.map Prod.fst := by
  induction l with
  | nil => rfl
  | cons p t ih =>
    rcases p with ⟨k', v'⟩
    unfold updateAssoc
    by_cases hk : k' = k
    · rw [if_pos hk]
      simp
    · rw [if_neg hk]
      simp [ih]

theorem mem_updateAssoc {l : List (String × Rec)} {k : String} {v : Rec}
    {p : String × Rec} (h : p ∈ updateAssoc l k v) : p ∈ l ∨ p = (k, v) := by
  induction l with
  | nil => simp [updateAssoc] at h
  | cons q t ih =>
    rcases q with ⟨k', v'⟩
    unfold updateAssoc at h
    by_cases hk : k' = k
    · rw [if_pos hk] at h
      rcases List.mem_cons.mp h with rfl | hmem
      · exact Or.inr (by rw [hk])
      · exact Or.inl (List.mem_cons_of_mem _ hmem)
    · rw [if_neg hk] at h
      rcases List.mem_cons.mp h with rfl | hmem
      · exact Or.inl (List.mem_cons_self _ _)
      · rcases ih hmem with hmem' | rfl
        · exact Or.inl (List.mem_cons_of_mem _ hmem')
        · exact Or.inr rfl

theorem lookup_eq_none_iff (l : List (String × Rec)) (em : String) :
    l.lookup em = none ↔ em ∉ l.map Prod.fst := by
  induction l with
  | nil => simp [List.lookup]
  | cons p t ih =>
    rcases p with ⟨k', v'⟩
    by_cases h : em = k'
    · simp [List.lookup, h]
    · simp only [List.lookup]
      rw [show (em == k') = false by simp [h]]
      simp [ih, h]

theorem lookup_mem {l : List (String × Rec)} {em : String} {v : Rec}
    (h : l.lookup em = some v) : (em, v) ∈ l := by
  induction l with
  | nil => simp [List.lookup] at h
  | cons p t ih =>
    rcases p with ⟨k', v'⟩
    by_cases he : em = k'
    · subst he
      simp [List.lookup] at h
      simp [h]
    · simp only [List.lookup] at h
      rw [show (em == k') = false by simp [he]] at h
      exact List.mem_cons_of_mem _ (ih h)

theorem lookup_unionAt (l : List (String × List String)) (k : String) (cols : List String)
    (em : String) :
    (unionAt l k cols).lookup em =
      (if em = k then some (cols.foldl insertSet ((l.lookup k).getD []))
       else l.lookup em) := by
  induction l with
  | nil =>
    by_cases h : em = k
    · simp [unionAt, List.lookup, h]
    · simp only [unionAt, List.lookup]
      rw [show (em == k) = false by simp [h]]
      simp [h]
  | cons p t ih =>
    rcases p with ⟨k', s⟩
    unfold unionAt
    by_cases hk : k' = k
    · subst hk
      rw [if_pos rfl]
      by_cases h : em = k'
      · subst h
        simp [List.lookup]
      · rw [if_neg h]
        simp only [List.lookup]
        rw [show (em == k') = false by simp [h]]
    · rw [if_neg hk]
      by_cases h : em = k'
      · subst h
        rw [if_neg hk]
        simp [List.lookup]
      · simp only [List.lookup]
        rw [show (em == k') = false by simp [h]]
        rw [ih]
        by_cases hek : em = k
        · rw [if_pos hek, if_pos hek]
          simp only [List.lookup]
          rw [show (k == k') = false by
            have : ¬(k = k') := fun he => hk he.symm
            simp [this]]
        · rw [if_neg hek, if_neg hek]

/-! ## Tracking one address through the processing loop -/

/-- Effect of processing one sighting of address `em` on its record. -/
def stepLookup (cfg : Config) (sent : Option DateTime) (subj : String) (em : String)
    (cur : Option Rec) : Option Rec :=
  match splitAtFirstAt em with
  | none => cur
  | some (localPart, domain) =>
    if is_excluded_local cfg localPart then cur
    else
      match cur with
      | none => some (newRec em localPart domain sent subj)
      | some prev => some (mergeRec prev localPart domain sent subj)

theorem processEmail_none (cfg : Config) (idx : Nat) (sent : Option DateTime) (subj : String)
    (cols : List String) (st : PipeState) (e : String) (h : splitAtFirstAt e = none) :
    processEmail cfg idx sent subj cols st e = st := by
  unfold processEmail
  rw [h]

theorem processEmail_excl (cfg : Config) (idx : Nat) (sent : Option DateTime) (subj : String)
    (cols : List String) (st : PipeState) (e l d : String)
    (h : splitAtFirstAt e = some (l, d)) (hex : is_excluded_local cfg l = true) :
    processEmail cfg idx sent subj cols st e =
      { st with excluded := st.excluded ++
        [{ email := e, motivo := "Filtro de exclusión", filaOrigen := idx + 1,
           columnasOrigen := joinStr ";" (sortStrings cols) }] } := by
  unfold processEmail
  simp only [h, hex, if_true]

theorem processEmail_new (cfg : Config) (idx : Nat) (sent : Option DateTime) (subj : String)
    (cols : List String) (st : PipeState) (e l d : String)
    (h : splitAtFirstAt e = some (l, d)) (hex : is_excluded_local cfg l = false)
    (hl : st.records.lookup e = none) :
    processEmail cfg idx sent subj cols st e =
      { st with records := st.records ++ [(e, newRec e l d sent subj)],
                colsByEmail := unionAt st.colsByEmail e cols } := by
  unfold processEmail
  simp only [h, hex, Bool.false_eq_true, if_false, hl]

theorem processEmail_merge (cfg : Config) (idx : Nat) (sent : Option DateTime) (subj : String)
    (cols : List String) (st : PipeState) (e l d : String) (prev : Rec)
    (h : splitAtFirstAt e = some (l, d)) (hex : is_excluded_local cfg l = false)
    (hl : st.records.lookup e = some prev) :
    processEmail cfg idx sent subj cols st e =
      { st with records := updateAssoc st.records e (mergeRec prev l d sent subj),
                colsByEmail := unionAt st.colsByEmail e cols } := by
  unfold processEmail
  simp only [h, hex, Bool.false_eq_true, if_false, hl]

theorem stepLookup_noSplit (cfg : Config) (sent : Option DateTime) (subj : String)
    (em : String) (cur : Option Rec) (h : splitAtFirstAt em = none) :
    stepLookup cfg sent subj em cur = cur := by
  unfold stepLookup
  rw [h]

theorem stepLookup_excl (cfg : Config) (sent : Option DateTime) (subj : String)
    (em l d : String) (cur : Option Rec) (h : splitAtFirstAt em = some (l, d))
    (hex : is_excluded_local cfg l = true) :
    stepLookup cfg sent subj em cur = cur := by
  unfold stepLookup
  simp only [h, hex, if_true]

theorem stepLookup_new (cfg : Config) (sent : Option DateTime) (subj : String)
    (em l d : String) (h : splitAtFirstAt em = some (l, d))
    (hex : is_excluded_local cfg l = false) :
    stepLookup cfg sent subj em none = some (newRec em l d sent subj) := by
  unfold stepLookup
  simp only [h, hex, Bool.false_eq_true, if_false]

theorem stepLookup_merge (cfg : Config) (sent : Option DateTime) (subj : String)
    (em l d : String) (prev : Rec) (h : splitAtFirstAt em = some (l, d))
    (hex : is_excluded_local cfg l = false) :
    stepLookup cfg sent subj em (some prev) = some (mergeRec prev l d sent subj) := by
  unfold stepLookup
  simp only [h, hex, Bool.false_eq_true, if_false]

theorem lookup_processEmail (cfg : Config) (idx : Nat) (sent : Option DateTime)
    (subj : String) (cols : List String) (st : PipeState) (e em : String) :
    (processEmail cfg idx sent subj cols st e).records.lookup em =
      (if e = em then stepLookup cfg sent subj em (st.records.lookup em)
       else st.records.lookup em) := by
  cases hsp : splitAtFirstAt e with
  | none =>
    rw [processEmail_none cfg idx sent subj cols st e hsp]
    by_cases he : e = em
    · subst he
      rw [if_pos rfl, stepLookup_noSplit cfg sent subj e _ hsp]
    · rw [if_neg he]
  | some pr =>
    rcases pr with ⟨l, d⟩
    by_cases hex : is_excluded_local cfg l = true
    · rw [processEmail_excl cfg idx sent subj cols st e l d hsp hex]
      by_cases he : e = em
      · subst he
        rw [if_pos rfl, stepLookup_excl cfg sent subj e l d _ hsp hex]
      · rw [if_neg he]
    · have hex' : is_excluded_local cfg l = false := by
        cases hb : is_excluded_local cfg l
        · rfl
        · exact absurd hb hex
      cases hl : st.records.lookup e with
      | none =>
        rw [processEmail_new cfg idx sent subj cols st e l d hsp hex' hl]
        by_cases he : e = em
        · subst he
          rw [if_pos rfl]
          simp only
          rw [lookup_append_single]
          simp only [hl, stepLookup_new cfg sent subj e l d hsp hex']
          simp
        · rw [if_neg he]
          simp only
          rw [lookup_append_single]
          cases hl' : st.records.lookup em with
          | some w => rfl
          | none => rw [if_neg (fun hek => he hek.symm)]
      | some prev =>
        rw [processEmail_merge cfg idx sent subj cols st e l d prev hsp hex' hl]
        by_cases he : e = em
        · subst he
          rw [if_pos rfl]
          simp only
          rw [lookup_updateAssoc]
          simp only [hl, stepLookup_merge cfg sent subj e l d prev hsp hex']
          simp
        · rw [if_neg he]
          simp only
          rw [lookup_updateAssoc, if_neg (fun hek => he hek.symm)]

theorem lookup_foldFound (cfg : Config) (idx : Nat) (sent : Option DateTime) (subj : String)
    (cols : List String) (found : List String) (st : PipeState) (em : String)
    (hnd : found.Nodup) :
    (found.foldl (processEmail cfg idx sent subj cols) st).records.lookup em =
      (if em ∈ found then stepLookup cfg sent subj em (st.records.lookup em)
       else st.records.lookup em) := by
  induction found generalizing st with
  | nil => simp
  | cons e fs ih =>
    rw [List.foldl_cons]
    have hnd' := List.nodup_cons.mp hnd
    rw [ih _ hnd'.2]
    by_cases he : e = em
    · subst he
      rw [if_neg (fun hmem => hnd'.1 hmem)]
      rw [lookup_processEmail, if_pos rfl]
      rw [if_pos (List.mem_cons_self _ _)]
    · by_cases hmem : em ∈ fs
      · rw [if_pos hmem, if_pos (List.mem_cons_of_mem _ hmem)]
        rw [lookup_processEmail, if_neg he]
      · rw [if_neg hmem]
        rw [lookup_processEmail, if_neg he]
        rw [if_neg (by
          intro hc
          rcases List.mem_cons.mp hc with rfl | hc'
          · exact he rfl
          · exact hmem hc')]

theorem lookup_processRow (cfg : Config) (st : PipeState) (idx : Nat) (row : Row)
    (em : String) :
    (processRow cfg st idx row).records.lookup em =
      (if em ∈ (harvest_emails_from_row row).1 then
        stepLookup cfg (rowSent cfg row) (rowSubject row) em (st.records.lookup em)
       else st.records.lookup em) :=
  lookup_foldFound cfg idx (rowSent cfg row) (rowSubject row)
    (harvest_emails_from_row row).2 (harvest_emails_from_row row).1 st em
    (harvest_nodup row).1

/-- The sightings of address `em`: one `(parsed date, subject)` pair per row
in which `em` was harvested, in row order. -/
def sightingsFor (cfg : Config) (rows : List Row) (em : String) :
    List (Option DateTime × String) :=
  rows.filterMap (fun row =>
    if em ∈ (harvest_emails_from_row row).1 then some (rowSent cfg row, rowSubject row)
    else none)

theorem lookup_processRowsFrom (cfg : Config) (rows : List Row) (idx : Nat) (st : PipeState)
    (em : String) :
    (processRowsFrom cfg idx st rows).records.lookup em =
      (sightingsFor cfg rows em).foldl
        (fun cur p => stepLookup cfg p.1 p.2 em cur) (st.records.lookup em) := by
  induction rows generalizing idx st with
  | nil => rfl
  | cons row rest ih =>
    unfold processRowsFrom sightingsFor
    rw [List.filterMap_cons]
    by_cases hmem : em ∈ (harvest_emails_from_row row).1
    · rw [if_pos hmem]
      simp only [List.foldl_cons]
      rw [ih]
      rw [lookup_processRow, if_pos hmem]
      rfl
    · rw [if_neg hmem]
      rw [ih]
      rw [lookup_processRow, if_neg hmem]
      rfl

/-! ## Projections of `newRec` / `mergeRec` -/

theorem newRec_ultimo (em l d : String) (sent : Option DateTime) (subj : String) :
    (newRec em l d sent subj).ultimoEnvio = sent := rfl

theorem newRec_asunto (em l d : String) (sent : Option DateTime) (subj : String) :
    (newRec em l d sent subj).asuntoUltimo = subj := rfl

theorem newRec_email (em l d : String) (sent : Option DateTime) (subj : String) :
    (newRec em l d sent subj).email = em := rfl

theorem mergeRec_ultimo_asunto (prev : Rec) (l d : String) (sent : Option DateTime)
    (subj : String) :
    (mergeRec prev l d sent subj).ultimoEnvio =
      (match sent, prev.ultimoEnvio with
       | none, _ => prev.ultimoEnvio
       | some s, none => some s
       | some s, some pt => if dtLt pt s then some s else prev.ultimoEnvio) ∧
    (mergeRec prev l d sent subj).asuntoUltimo =
      (match sent, prev.ultimoEnvio with
       | none, _ => prev.asuntoUltimo
       | some _, none => subj
       | some s, some pt => if dtLt pt s then subj else prev.asuntoUltimo) := by
  unfold mergeRec
  cases sent with
  | none =>
    cases hp : prev.ultimoEnvio <;> (constructor <;> (simp only [hp]; split_ifs <;> simp [hp]))
  | some _ =>
    cases hp : prev.ultimoEnvio <;> (constructor <;> (simp only [hp]; split_ifs <;> simp [hp]))

theorem mergeRec_email (prev : Rec) (l d : String) (sent : Option DateTime) (subj : String) :
    (mergeRec prev l d sent subj).email = prev.email := by
  unfold mergeRec
  cases sent with
  | none =>
    cases hp : prev.ultimoEnvio <;> (simp only [hp]; split_ifs <;> simp [hp])
  | some _ =>
    cases hp : prev.ultimoEnvio <;> (simp only [hp]; split_ifs <;> simp [hp])

/-! ## Claim C3: the merge policy -/

/-- The two timestamp-related pieces of merged state for one address:
its timestamp is an upper bound of, and attained (together with its subject)
by, the processed sightings; and it is `none` only if no sighting parsed. -/
def SightInv (sights : List (Option DateTime × String)) (r : Rec) : Prop :=
  (∀ t, r.ultimoEnvio = some t →
      (∀ p ∈ sights, ∀ t', p.1 = some t' → dtLe t' t = true) ∧
      ∃ p ∈ sights, p.1 = some t ∧ p.2 = r.asuntoUltimo) ∧
  (r.ultimoEnvio = none → ∀ p ∈ sights, p.1 = none)

theorem SightInv_new (em l d : String) (sent : Option DateTime) (subj : String) :
    SightInv [(sent, subj)] (newRec em l d sent subj) := by
  constructor
  · intro t ht
    rw [newRec_ultimo] at ht
    constructor
    · intro p hp t' hp1
      rcases List.mem_singleton.mp hp with rfl
      rw [ht] at hp1
      cases hp1
      exact dtLe_refl t
    · refine ⟨(sent, subj), List.mem_singleton_self _, ?_, ?_⟩
      · rw [ht]
      · rw [newRec_asunto]
  · intro h0 p hp
    rcases List.mem_singleton.mp hp with rfl
    rw [newRec_ultimo] at h0
    exact h0

theorem SightInv_step (sights : List (Option DateTime × String)) (r : Rec)
    (sent : Option DateTime) (subj l d : String) (hInv : SightInv sights r) :
    SightInv (sights ++ [(sent, subj)]) (mergeRec r l d sent subj) := by
  obtain ⟨hu, ha⟩ := mergeRec_ultimo_asunto r l d sent subj
  cases sent with
  | none =>
    simp only at hu ha
    constructor
    · intro t ht
      rw [hu] at ht
      obtain ⟨hbound, p0, hp0, hp01, hp02⟩ := hInv.1 t ht
      constructor
      · intro p hp t' hp1
        rcases List.mem_append.mp hp with hpo | hpn
        · exact hbound p hpo t' hp1
        · rcases List.mem_singleton.mp hpn with rfl
          exact absurd hp1 (by simp)
      · exact ⟨p0, List.mem_append_left _ hp0, hp01, by rw [ha]; exact hp02⟩
    · intro h0 p hp
      rw [hu] at h0
      rcases List.mem_append.mp hp with hpo | hpn
      · exact hInv.2 h0 p hpo
      · rcases List.mem_singleton.mp hpn with rfl
        rfl
  | some s =>
    cases hr : r.ultimoEnvio with
    | none =>
      simp only [hr] at hu ha
      constructor
      · intro t ht
        rw [hu] at ht
        cases ht
        constructor
        · intro p hp t' hp1
          rcases List.mem_append.mp hp with hpo | hpn
          · exact absurd hp1 (by rw [hInv.2 hr p hpo]; simp)
          · rcases List.mem_singleton.mp hpn with rfl
            cases hp1
            exact dtLe_refl _
        · exact ⟨(some s, subj), List.mem_append_right _ (List.mem_singleton_self _),
            rfl, ha.symm⟩
      · intro h0
        rw [hu] at h0
        exact absurd h0 (by simp)
    | some pt =>
      by_cases hlt : dtLt pt s = true
      · simp only [hr, if_pos hlt] at hu ha
        constructor
        · intro t ht
          rw [hu] at ht
          cases ht
          obtain ⟨hbound, _⟩ := hInv.1 pt hr
          constructor
          · intro p hp t' hp1
            rcases List.mem_append.mp hp with hpo | hpn
            · exact dtLe_trans_lt (hbound p hpo t' hp1) hlt
            · rcases List.mem_singleton.mp hpn with rfl
              cases hp1
              exact dtLe_refl _
          · exact ⟨(some s, subj), List.mem_append_right _ (List.mem_singleton_self _),
              rfl, ha.symm⟩
        · intro h0
          rw [hu] at h0
          exact absurd h0 (by simp)
      · have hlt' : dtLt pt s = false := by
          cases hb : dtLt pt s
          · rfl
          · exact absurd hb hlt
        simp only [hr, hlt', Bool.false_eq_true, if_false] at hu ha
        constructor
        · intro t ht
          rw [hu] at ht
          injection ht with hpt
          subst hpt
          obtain ⟨hbound, p0, hp0, hp01, hp02⟩ := hInv.1 pt hr
          constructor
          · intro p hp t' hp1
            rcases List.mem_append.mp hp with hpo | hpn
            · exact hbound p hpo t' hp1
            · rcases List.mem_singleton.mp hpn with rfl
              cases hp1
              exact dtLe_of_not_lt hlt'
          · exact ⟨p0, List.mem_append_left _ hp0, hp01, by rw [ha]; exact hp02⟩
        · intro h0
          rw [hu] at h0
          exact absurd h0 (by simp)

theorem SightInv_fold (cfg : Config) (em l d : String)
    (hsplit : splitAtFirstAt em = some (l, d))
    (hexcl : is_excluded_local cfg l = false)
    (rest : List (Option DateTime × String)) :
    ∀ (acc : List (Option DateTime × String)) (r : Rec), SightInv acc r →
    ∃ r', (rest.foldl (fun cur p => stepLookup cfg p.1 p.2 em cur) (some r)) = some r' ∧
      SightInv (acc ++ rest) r' := by
  induction rest with
  | nil =>
    intro acc r h
    exact ⟨r, rfl, by simpa using h⟩
  | cons p ps ih =>
    intro acc r h
    rw [List.foldl_cons]
    rw [show stepLookup cfg p.1 p.2 em (some r) = some (mergeRec r l d p.1 p.2) from
      stepLookup_merge cfg p.1 p.2 em l d r hsplit hexcl]
    obtain ⟨r', hr', hinv'⟩ := ih (acc ++ [p]) (mergeRec r l d p.1 p.2)
      (SightInv_step acc r p.1 p.2 l d h)
    refine ⟨r', hr', ?_⟩
    rwa [List.append_assoc] at hinv'

/-- Claim C3: for a non-excluded address `em` sighted at least once, the
final record satisfies: its UltimoEnvio is an upper bound of all parsed
timestamps of its sightings and is attained by a sighting whose subject is
its AsuntoUltimo (i.e. it is the maximum and the subject comes from a row
bearing it); it is `none` only when no sighting parsed; and merging one more
sighting with no timestamp, or with a timestamp ≤ the current one, changes
neither UltimoEnvio nor AsuntoUltimo. -/
theorem C3_merge_policy (cfg : Config) (rows : List Row) (em localPart domain : String)
    (hsplit : splitAtFirstAt em = some (localPart, domain))
    (hexcl : is_excluded_local cfg localPart = false)
    (hne : sightingsFor cfg rows em ≠ []) :
    ∃ r, (processRows cfg rows).records.lookup em = some r ∧
      (∀ t, r.ultimoEnvio = some t →
        (∀ p ∈ sightingsFor cfg rows em, ∀ t', p.1 = some t' → dtLe t' t = true) ∧
        ∃ p ∈ sightingsFor cfg rows em, p.1 = some t ∧ p.2 = r.asuntoUltimo) ∧
      (r.ultimoEnvio = none → ∀ p ∈ sightingsFor cfg rows em, p.1 = none) ∧
      (∀ sent subj,
        (sent = none ∨ ∃ t t', r.ultimoEnvio = some t ∧ sent = some t' ∧ dtLe t' t = true) →
        (mergeRec r localPart domain sent subj).ultimoEnvio = r.ultimoEnvio ∧
        (mergeRec r localPart domain sent subj).asuntoUltimo = r.asuntoUltimo) := by
  have hlp : (processRows cfg rows).records.lookup em =
      (sightingsFor cfg rows em).foldl
        (fun cur p => stepLookup cfg p.1 p.2 em cur) none := by
    unfold processRows
    exact lookup_processRowsFrom cfg rows 0 initState em
  rcases hs : sightingsFor cfg rows em with _ | ⟨p0, ps⟩
  · exact absurd hs hne
  · rw [hs] at hlp
    rw [List.foldl_cons] at hlp
    rw [show stepLookup cfg p0.1 p0.2 em none =
        some (newRec em localPart domain p0.1 p0.2) from
      stepLookup_new cfg p0.1 p0.2 em localPart domain hsplit hexcl] at hlp
    obtain ⟨r, hr, hinv⟩ := SightInv_fold cfg em localPart domain hsplit hexcl ps
      [p0] (newRec em localPart domain p0.1 p0.2)
      (SightInv_new em localPart domain p0.1 p0.2)
    refine ⟨r, by rw [hlp, hr], ?_, ?_, ?_⟩
    · intro t ht
      have := hinv.1 t ht
      rwa [List.singleton_append] at this
    · intro h0
      have := hinv.2 h0
      rwa [List.singleton_append] at this
    · intro sent subj hcond
      obtain ⟨hu, ha⟩ := mergeRec_ultimo_asunto r localPart domain sent subj
      rcases hcond with rfl | ⟨t, t', hrt, rfl, hle⟩
      · simp only at hu ha
        exact ⟨hu, ha⟩
      · rw [hrt] at hu ha
        have hlt : dtLt t t' = false := dtLe_iff_not_lt.mp hle
        simp only [hlt, Bool.false_eq_true, if_false] at hu ha
        exact ⟨by rw [hu, hrt], ha⟩

def cfgC3 : Config :=
  { dateCol := some "Sent", months := 6, useRole := true, customPrefixes := [],
    useRegex := false }

def rowsC3 : List Row :=
  [[("From", "Ana.Diaz@acme.com"), ("Sent", "2024-01-10 08:00:00"), ("Subject", "hola")],
   [("From", "Ana.Diaz@acme.com"), ("Sent", "2024-03-05 09:30:00"), ("Subject", "segundo")]]

/-- Claim C3 witness: the address `ana.diaz@acme.com` is sighted in two rows
with parsed timestamps; all hypotheses of the theorem hold on this concrete
input, and applying it shows the merged record exists. -/
theorem C3_witness :
    splitAtFirstAt "ana.diaz@acme.com" = some ("ana.diaz", "acme.com") ∧
    is_excluded_local cfgC3 "ana.diaz" = false ∧
    sightingsFor cfgC3 rowsC3 "ana.diaz@acme.com" ≠ [] ∧
    (processRows cfgC3 rowsC3).records.lookup "ana.diaz@acme.com" ≠ none :=
  ⟨by decide, by decide, by decide, by
    rcases C3_merge_policy cfgC3 rowsC3 "ana.diaz@acme.com" "ana.diaz" "acme.com"
      (by decide) (by decide) (by decide) with ⟨r, hr, _⟩
    rw [hr]
    simp⟩

/-! ## Records well-formedness: keys are the (unique) contact emails -/

def RecordsWF (l : List (String × Rec)) : Prop :=
  (l.map Prod.fst).Nodup ∧ ∀ p ∈ l, p.2.email = p.1

theorem RecordsWF_processEmail (cfg : Config) (idx : Nat) (sent : Option DateTime)
    (subj : String) (cols : List String) (st : PipeState) (e : String)
    (h : RecordsWF st.records) :
    RecordsWF (processEmail cfg idx sent subj cols st e).records := by
  cases hsp : splitAtFirstAt e with
  | none =>
    rw [processEmail_none cfg idx sent subj cols st e hsp]
    exact h
  | some pr =>
    rcases pr with ⟨l, d⟩
    by_cases hex : is_excluded_local cfg l = true
    · rw [processEmail_excl cfg idx sent subj cols st e l d hsp hex]
      exact h
    · have hex' : is_excluded_local cfg l = false := by
        cases hb : is_excluded_local cfg l
        · rfl
        · exact absurd hb hex
      cases hl : st.records.lookup e with
      | none =>
        rw [processEmail_new cfg idx sent subj cols st e l d hsp hex' hl]
        have hnotin := (lookup_eq_none_iff st.records e).mp hl
        constructor
        · simp only [List.map_append, List.map_cons, List.map_nil]
          simp [List.nodup_append, h.1, hnotin]
        · intro p hp
          rcases List.mem_append.mp hp with hp1 | hp2
          · exact h.2 p hp1
          · rcases List.mem_singleton.mp hp2 with rfl
            exact newRec_email e l d sent subj
      | some prev =>
        rw [processEmail_merge cfg idx sent subj cols st e l d prev hsp hex' hl]
        constructor
        · simp only
          rw [keys_updateAssoc]
          exact h.1
        · intro p hp
          rcases mem_updateAssoc hp with hp1 | rfl
          · exact h.2 p hp1
          · have := h.2 (e, prev) (lookup_mem hl)
            simp only at this ⊢
            rw [mergeRec_email]
            exact this

theorem RecordsWF_foldFound (cfg : Config) (idx : Nat) (sent : Option DateTime)
    (subj : String) (cols : List String) (found : List String) (st : PipeState)
    (h : RecordsWF st.records) :
    RecordsWF ((found.foldl (processEmail cfg idx sent subj cols) st).records) := by
  induction found generalizing st with
  | nil => exact h
  | cons e fs ih =>
    rw [List.foldl_cons]
    exact ih _ (RecordsWF_processEmail cfg idx sent subj cols st e h)

theorem RecordsWF_processRowsFrom (cfg : Config) (rows : List Row) (idx : Nat)
    (st : PipeState) (h : RecordsWF st.records) :
    RecordsWF ((processRowsFrom cfg idx st rows).records) := by
  induction rows generalizing idx st with
  | nil => exact h
  | cons row rest ih =>
    unfold processRowsFrom
    exact ih _ _ (RecordsWF_foldFound cfg idx (rowSent cfg row) (rowSubject row)
      (harvest_emails_from_row row).2 (harvest_emails_from_row row).1 st h)

theorem RecordsWF_processRows (cfg : Config) (rows : List Row) :
    RecordsWF ((processRows cfg rows).records) :=
  RecordsWF_processRowsFrom cfg rows 0 initState
    ⟨List.nodup_nil, fun p hp => absurd hp (by simp [initState])⟩

/-- Every pipeline contact comes from a records entry, with email = key. -/
theorem contacts_from_records (cfg : Config) (now : DateTime) (rows : List Row)
    (c : Contact) (hc : c ∈ (pipeline cfg now rows).contacts) :
    ∃ p ∈ (processRows cfg rows).records,
      c = finalizeContact (subDays now (30 * cfg.months))
        (processRows cfg rows).colsByEmail p.1 p.2 ∧ c.email = p.1 := by
  have hmem : c ∈ ((processRows cfg rows).records).map
      (fun p => finalizeContact (subDays now (30 * cfg.months))
        (processRows cfg rows).colsByEmail p.1 p.2) := hc
  rcases List.mem_map.mp hmem with ⟨p, hp, hcp⟩
  refine ⟨p, hp, hcp.symm, ?_⟩
  rw [← hcp]
  show p.2.email = p.1
  exact (RecordsWF_processRows cfg rows).2 p hp

/-! ## Claim C5: exclusion runs before merge and rollup -/

theorem foldSteps_excluded (cfg : Config) (em l d : String)
    (hsplit : splitAtFirstAt em = some (l, d)) (hex : is_excluded_local cfg l = true)
    (sights : List (Option DateTime × String)) (cur : Option Rec) :
    sights.foldl (fun cur p => stepLookup cfg p.1 p.2 em cur) cur = cur := by
  induction sights generalizing cur with
  | nil => rfl
  | cons p ps ih =>
    rw [List.foldl_cons, stepLookup_excl cfg p.1 p.2 em l d cur hsplit hex]
    exact ih cur

theorem excluded_lookup_none (cfg : Config) (rows : List Row) (em l d : String)
    (hsplit : splitAtFirstAt em = some (l, d)) (hex : is_excluded_local cfg l = true) :
    (processRows cfg rows).records.lookup em = none := by
  unfold processRows
  rw [lookup_processRowsFrom cfg rows 0 initState em]
  exact foldSteps_excluded cfg em l d hsplit hex _ _

theorem excluded_mono_processEmail (cfg : Config) (idx : Nat) (sent : Option DateTime)
    (subj : String) (cols : List String) (st : PipeState) (e : String)
    (x : ExcludedRow) (hx : x ∈ st.excluded) :
    x ∈ (processEmail cfg idx sent subj cols st e).excluded := by
  cases hsp : splitAtFirstAt e with
  | none =>
    rw [processEmail_none cfg idx sent subj cols st e hsp]
    exact hx
  | some pr =>
    rcases pr with ⟨l, d⟩
    by_cases hex : is_excluded_local cfg l = true
    · rw [processEmail_excl cfg idx sent subj cols st e l d hsp hex]
      exact List.mem_append_left _ hx
    · have hex' : is_excluded_local cfg l = false := by
        cases hb : is_excluded_local cfg l
        · rfl
        · exact absurd hb hex
      cases hl : st.records.lookup e with
      | none =>
        rw [processEmail_new cfg idx sent subj cols st e l d hsp hex' hl]
        exact hx
      | some prev =>
        rw [processEmail_merge cfg idx sent subj cols st e l d prev hsp hex' hl]
        exact hx

theorem excluded_mono_foldFound (cfg : Config) (idx : Nat) (sent : Option DateTime)
    (subj : String) (cols : List String) (found : List String) (st : PipeState)
    (x : ExcludedRow) (hx : x ∈ st.excluded) :
    x ∈ (found.foldl (processEmail cfg idx sent subj cols) st).excluded := by
  induction found generalizing st with
  | nil => exact hx
  | cons e fs ih =>
    rw [List.foldl_cons]
    exact ih _ (excluded_mono_processEmail cfg idx sent subj cols st e x hx)

theorem excluded_mono_processRowsFrom (cfg : Config) (rows : List Row) (idx : Nat)
    (st : PipeState) (x : ExcludedRow) (hx : x ∈ st.excluded) :
    x ∈ (processRowsFrom cfg idx st rows).excluded := by
  induction rows generalizing idx st with
  | nil => exact hx
  | cons row rest ih =>
    unfold processRowsFrom
    exact ih _ _ (excluded_mono_foldFound cfg idx (rowSent cfg row) (rowSubject row)
      (harvest_emails_from_row row).2 (harvest_emails_from_row row).1 st x hx)

theorem excluded_add_foldFound (cfg : Config) (idx : Nat) (sent : Option DateTime)
    (subj : String) (cols : List String) (found : List String) (st : PipeState)
    (em l d : String) (hsplit : splitAtFirstAt em = some (l, d))
    (hex : is_excluded_local cfg l = true) (hmem : em ∈ found) :
    ∃ x ∈ (found.foldl (processEmail cfg idx sent subj cols) st).excluded, x.email = em := by
  induction found generalizing st with
  | nil => simp at hmem
  | cons e fs ih =>
    rw [List.foldl_cons]
    by_cases he : e = em
    · subst he
      have hadd : ∃ x ∈ (processEmail cfg idx sent subj cols st e).excluded, x.email = e := by
        rw [processEmail_excl cfg idx sent subj cols st e l d hsplit hex]
        exact ⟨_, List.mem_append_right _ (List.mem_singleton_self _), rfl⟩
      rcases hadd with ⟨x, hx, hxe⟩
      exact ⟨x, excluded_mono_foldFound cfg idx sent subj cols fs _ x hx, hxe⟩
    · rcases List.mem_cons.mp hmem with rfl | hmem'
      · exact absurd rfl he
      · exact ih _ hmem'

theorem excluded_add_processRowsFrom (cfg : Config) (rows : List Row) (idx : Nat)
    (st : PipeState) (em l d : String) (hsplit : splitAtFirstAt em = some (l, d))
    (hex : is_excluded_local cfg l = true)
    (hrow : ∃ row ∈ rows, em ∈ (harvest_emails_from_row row).1) :
    ∃ x ∈ (processRowsFrom cfg idx st rows).excluded, x.email = em := by
  induction rows generalizing idx st with
  | nil => simp at hrow
  | cons row rest ih =>
    unfold processRowsFrom
    rcases hrow with ⟨row', hrow', hmem⟩
    rcases List.mem_cons.mp hrow' with rfl | hrest
    · have hadd := excluded_add_foldFound cfg idx (rowSent cfg row') (rowSubject row')
        (harvest_emails_from_row row').2 (harvest_emails_from_row row').1 st em l d
        hsplit hex hmem
      rcases hadd with ⟨x, hx, hxe⟩
      exact ⟨x, excluded_mono_processRowsFrom cfg rest _ _ x hx, hxe⟩
    · exact ih _ _ ⟨row', hrest, hmem⟩

theorem aggInit_contactos : aggInit.contactos = [] := rfl

theorem aggUpdate_fields (a : Agg) (c : Contact) :
    (aggUpdate a c).contactos = insertSet a.contactos c.email ∧
    (aggUpdate a c).totalEmails = a.totalEmails + 1 := by
  unfold aggUpdate
  dsimp only
  constructor <;> ((repeat' split) <;> rfl)

theorem aggFold_contactos {groups : List ((String × String) × Agg)} {c : Contact}
    {ka : (String × String) × Agg} (hka : ka ∈ aggFold groups c) :
    ∀ x ∈ ka.2.contactos, (∃ kb ∈ groups, x ∈ kb.2.contactos) ∨ x = c.email := by
  induction groups with
  | nil =>
    simp only [aggFold, List.mem_singleton] at hka
    subst hka
    intro x hx
    simp only [(aggUpdate_fields aggInit c).1, aggInit_contactos] at hx
    rcases mem_insertSet.mp hx with hx' | rfl
    · simp at hx'
    · exact Or.inr rfl
  | cons kb t ih =>
    rcases kb with ⟨k, a⟩
    unfold aggFold at hka
    by_cases hk : k = (c.empresa, c.dominio)
    · rw [if_pos hk] at hka
      rcases List.mem_cons.mp hka with rfl | hka'
      · intro x hx
        simp only [(aggUpdate_fields a c).1] at hx
        rcases mem_insertSet.mp hx with hx' | rfl
        · exact Or.inl ⟨(k, a), List.mem_cons_self _ _, hx'⟩
        · exact Or.inr rfl
      · intro x hx
        exact Or.inl ⟨ka, List.mem_cons_of_mem _ hka', hx⟩
    · rw [if_neg hk] at hka
      rcases List.mem_cons.mp hka with rfl | hka'
      · intro x hx
        exact Or.inl ⟨(k, a), List.mem_cons_self _ _, hx⟩
      · intro x hx
        rcases ih hka' x hx with ⟨kb', hkb', hxkb'⟩ | rfl
        · exact Or.inl ⟨kb', List.mem_cons_of_mem _ hkb', hxkb'⟩
        · exact Or.inr rfl

theorem foldAgg_contactos (contacts : List Contact)
    (groups : List ((String × String) × Agg)) (ka : (String × String) × Agg)
    (hka : ka ∈ contacts.foldl aggFold groups) :
    ∀ x ∈ ka.2.contactos,
      (∃ kb ∈ groups, x ∈ kb.2.contactos) ∨ ∃ c ∈ contacts, x = c.email := by
  induction contacts generalizing groups with
  | nil =>
    intro x hx
    exact Or.inl ⟨ka, hka, hx⟩
  | cons c cs ih =>
    rw [List.foldl_cons] at hka
    intro x hx
    rcases ih (aggFold groups c) hka x hx with ⟨kb, hkb, hxkb⟩ | ⟨c', hc', hxc'⟩
    · rcases aggFold_contactos hkb x hxkb with ⟨kb', hkb', hxkb'⟩ | rfl
      · exact Or.inl ⟨kb', hkb', hxkb'⟩
      · exact Or.inr ⟨c, List.mem_cons_self _ _, rfl⟩
    · exact Or.inr ⟨c', List.mem_cons_of_mem _ hc', hxc'⟩

/-- Claim C5: an address whose local-part the exclusion filter matches never
appears among the contacts, never contributes to any company-rollup group,
and — whenever it is harvested from some row — is appended to the Excluded
table; the timestamp plays no role.  (The rollup groups are the fold the
Companies table is built from.) -/
theorem C5_exclusion (cfg : Config) (now : DateTime) (rows : List Row) (em l d : String)
    (hsplit : splitAtFirstAt em = some (l, d))
    (hex : is_excluded_local cfg l = true) :
    (∀ c ∈ (pipeline cfg now rows).contacts, c.email ≠ em) ∧
    (∀ ka ∈ (pipeline cfg now rows).contacts.foldl aggFold
        ([] : List ((String × String) × Agg)), em ∉ ka.2.contactos) ∧
    ((∃ row ∈ rows, em ∈ (harvest_emails_from_row row).1) →
      ∃ x ∈ (pipeline cfg now rows).excludedTab, x.email = em) := by
  have hnone := excluded_lookup_none cfg rows em l d hsplit hex
  have hkey : em ∉ ((processRows cfg rows).records).map Prod.fst :=
    (lookup_eq_none_iff _ em).mp hnone
  have hcontacts : ∀ c ∈ (pipeline cfg now rows).contacts, c.email ≠ em := by
    intro c hc hce
    rcases contacts_from_records cfg now rows c hc with ⟨p, hp, _, hcp⟩
    have hpe : p.1 = em := by rw [← hcp, hce]
    apply hkey
    rw [← hpe]
    exact List.mem_map_of_mem Prod.fst hp
  refine ⟨hcontacts, ?_, ?_⟩
  · intro ka hka hxm
    rcases foldAgg_contactos _ _ ka hka em hxm with ⟨kb, hkb, hxkb⟩ | ⟨c, hc, hxc⟩
    · simp at hkb
    · exact hcontacts c hc hxc.symm
  · intro hrow
    exact excluded_add_processRowsFrom cfg rows 0 initState em l d hsplit hex hrow

def cfgC5 : Config :=
  { dateCol := none, months := 6, useRole := true, customPrefixes := [], useRegex := false }

def nowC5 : DateTime := ⟨2024, 1, 1, 0, 0, 0⟩

def rowsC5 : List Row := [[("To", "ventas@acme.com; maria@acme.com")]]

/-- Claim C5 witness: `ventas@acme.com` matches the role prefix `ventas`;
on a concrete run the theorem applies, and its Excluded-table conjunct makes
the Excluded table non-empty. -/
theorem C5_witness :
    splitAtFirstAt "ventas@acme.com" = some ("ventas", "acme.com") ∧
    is_excluded_local cfgC5 "ventas" = true ∧
    (pipeline cfgC5 nowC5 rowsC5).excludedTab ≠ [] :=
  ⟨by decide, by decide, by
    rcases (C5_exclusion cfgC5 nowC5 rowsC5 "ventas@acme.com" "ventas" "acme.com"
        (by decide) (by decide)).2.2
        ⟨[("To", "ventas@acme.com; maria@acme.com")], by decide, by decide⟩ with ⟨x, hx, _⟩
    intro hempty
    rw [hempty] at hx
    simp at hx⟩

/-! ## Claim C10: TotalEmails counts merged contacts -/

theorem insertSet_length_of_not_mem {l : List String} {x : String} (h : x ∉ l) :
    (insertSet l x).length = l.length + 1 := by
  unfold insertSet
  rw [if_neg (by intro hc; exact h (by simpa using hc))]
  simp

theorem aggFold_cases {groups : List ((String × String) × Agg)} {c : Contact}
    {ka : (String × String) × Agg} (h : ka ∈ aggFold groups c) :
    ka ∈ groups ∨
    (∃ a, (ka.1, a) ∈ groups ∧ ka.2 = aggUpdate a c) ∨
    ka = ((c.empresa, c.dominio), aggUpdate aggInit c) := by
  induction groups with
  | nil =>
    simp only [aggFold, List.mem_singleton] at h
    exact Or.inr (Or.inr h)
  | cons kb t ih =>
    rcases kb with ⟨k, a⟩
    unfold aggFold at h
    by_cases hk : k = (c.empresa, c.dominio)
    · rw [if_pos hk] at h
      rcases List.mem_cons.mp h with rfl | h'
      · exact Or.inr (Or.inl ⟨a, List.mem_cons_self _ _, rfl⟩)
      · exact Or.inl (List.mem_cons_of_mem _ h')
    · rw [if_neg hk] at h
      rcases List.mem_cons.mp h with rfl | h'
      · exact Or.inl (List.mem_cons_self _ _)
      · rcases ih h' with h1 | ⟨a', ha', hu⟩ | h2
        · exact Or.inl (List.mem_cons_of_mem _ h1)
        · exact Or.inr (Or.inl ⟨a', List.mem_cons_of_mem _ ha', hu⟩)
        · exact Or.inr (Or.inr h2)

/-- Group bookkeeping: message counter = set size, the set has no duplicates,
and every member was seen among the already-processed contact emails. -/
def GroupsOk (seen : List String) (groups : List ((String × String) × Agg)) : Prop :=
  ∀ ka ∈ groups, ka.2.totalEmails = ka.2.contactos.length ∧ ka.2.contactos.Nodup ∧
    ∀ x ∈ ka.2.contactos, x ∈ seen

theorem GroupsOk_aggFold {seen : List String} {groups : List ((String × String) × Agg)}
    {c : Contact} (hok : GroupsOk seen groups) (hnew : c.email ∉ seen) :
    GroupsOk (seen ++ [c.email]) (aggFold groups c) := by
  intro ka hka
  have hupdate : ∀ a : Agg, a.totalEmails = a.contactos.length → a.contactos.Nodup →
      (∀ x ∈ a.contactos, x ∈ seen) →
      (aggUpdate a c).totalEmails = (aggUpdate a c).contactos.length ∧
      (aggUpdate a c).contactos.Nodup ∧
      ∀ x ∈ (aggUpdate a c).contactos, x ∈ seen ++ [c.email] := by
    intro a h1 h2 h3
    obtain ⟨hc, ht⟩ := aggUpdate_fields a c
    have hcm : c.email ∉ a.contactos := fun hm => hnew (h3 _ hm)
    refine ⟨?_, ?_, ?_⟩
    · rw [hc, ht, insertSet_length_of_not_mem hcm, h1]
    · rw [hc]
      exact insertSet_nodup h2
    · intro x hx
      rw [hc] at hx
      rcases mem_insertSet.mp hx with hx' | rfl
      · exact List.mem_append_left _ (h3 _ hx')
      · exact List.mem_append_right _ (List.mem_singleton_self _)
  rcases aggFold_cases hka with h1 | ⟨a, ha, hu⟩ | h2
  · obtain ⟨p1, p2, p3⟩ := hok ka h1
    exact ⟨p1, p2, fun x hx => List.mem_append_left _ (p3 x hx)⟩
  · obtain ⟨p1, p2, p3⟩ := hok (ka.1, a) ha
    rw [hu]
    exact hupdate a p1 p2 p3
  · rw [h2]
    refine hupdate aggInit rfl List.nodup_nil ?_
    intro x hx
    simp [aggInit_contactos] at hx

theorem GroupsOk_foldAgg (contacts : List Contact) :
    ∀ (seen : List String) (groups : List ((String × String) × Agg)),
    (seen ++ contacts.map (fun c => c.email)).Nodup → GroupsOk seen groups →
    ∀ ka ∈ contacts.foldl aggFold groups,
      ka.2.totalEmails = ka.2.contactos.length := by
  induction contacts with
  | nil =>
    intro seen groups _ hok ka hka
    exact (hok ka hka).1
  | cons c cs ih =>
    intro seen groups hnd hok ka hka
    rw [List.foldl_cons] at hka
    have hnew : c.email ∉ seen := by
      rcases List.nodup_append.mp hnd with ⟨_, _, hdis⟩
      intro hmem
      exact hdis hmem (by simp)
    have hnd' : ((seen ++ [c.email]) ++ cs.map (fun c => c.email)).Nodup := by
      rw [List.append_assoc, List.singleton_append]
      simpa using hnd
    exact ih (seen ++ [c.email]) (aggFold groups c) hnd' (GroupsOk_aggFold hok hnew) ka hka

theorem contacts_emails_eq_keys (cfg : Config) (now : DateTime) (rows : List Row) :
    (pipeline cfg now rows).contacts.map (fun c => c.email) =
      ((processRows cfg rows).records).map Prod.fst := by
  show (((processRows cfg rows).records).map _).map _ = _
  rw [List.map_map]
  apply List.map_congr_left
  intro p hp
  exact (RecordsWF_processRows cfg rows).2 p hp

theorem contacts_emails_nodup (cfg : Config) (now : DateTime) (rows : List Row) :
    ((pipeline cfg now rows).contacts.map (fun c => c.email)).Nodup := by
  rw [contacts_emails_eq_keys]
  exact (RecordsWF_processRows cfg rows).1

theorem aggRow_counts (ka : (String × String) × Agg) :
    (aggRow ka).totalEmails = ka.2.totalEmails ∧
    (aggRow ka).contactosUnicos = ka.2.contactos.length := ⟨rfl, rfl⟩

/-- Claim C10: in every Companies row, TotalEmails equals ContactosUnicos —
the counter is incremented once per merged contact, contact emails are
pairwise distinct, so the set of unique contacts grows in lockstep. -/
theorem C10_counts (cfg : Config) (now : DateTime) (rows : List Row) :
    ∀ r ∈ (pipeline cfg now rows).companies, r.totalEmails = r.contactosUnicos := by
  intro r hr
  have hperm : (pipeline cfg now rows).companies.Perm
      (((pipeline cfg now rows).contacts.foldl aggFold []).map aggRow) :=
    List.perm_insertionSort rowLe _
  have hr' := hperm.mem_iff.mp hr
  rcases List.mem_map.mp hr' with ⟨ka, hka, rfl⟩
  have := GroupsOk_foldAgg (pipeline cfg now rows).contacts [] _
    (by simpa using contacts_emails_nodup cfg now rows)
    (by intro ka hka; simp at hka) ka hka
  rw [(aggRow_counts ka).1, (aggRow_counts ka).2, this]

def rowC10 : CompanyRow :=
  { empresa := "Acme", dominio := "acme.com", pais := "", contactosUnicos := 1,
    totalEmails := 1, ultimoEnvio := "" }

/-- Claim C10 witness: the concrete run's single Companies row has
TotalEmails = ContactosUnicos. -/
theorem C10_witness :
    rowC10 ∈ (pipeline cfgC5 nowC5 rowsC5).companies ∧
    rowC10.totalEmails = rowC10.contactosUnicos :=
  ⟨by decide, C10_counts cfgC5 nowC5 rowsC5 rowC10 (by decide)⟩

/-! ## Claim C8: grouping key and sort order of the Companies table -/

theorem charListLt_cons (x y : Char) (as bs : List Char) :
    charListLt (x :: as) (y :: bs) =
      (decide (x < y) || (decide (x = y) && charListLt as bs)) := rfl

theorem charListLt_cons_iff (x y : Char) (as bs : List Char) :
    charListLt (x :: as) (y :: bs) = true ↔ (x < y ∨ (x = y ∧ charListLt as bs = true)) := by
  rw [charListLt_cons]
  simp [Bool.or_eq_true, Bool.and_eq_true, decide_eq_true_eq]

theorem charListLt_irrefl : ∀ l : List Char, charListLt l l = false := by
  intro l
  induction l with
  | nil => rfl
  | cons a as ih =>
    cases h : charListLt (a :: as) (a :: as)
    · rfl
    · exfalso
      rcases (charListLt_cons_iff a a as as).mp h with hlt | ⟨_, htail⟩
      · exact lt_irrefl a hlt
      · rw [ih] at htail
        exact Bool.noConfusion htail

theorem charListLt_trans : ∀ (a b c : List Char), charListLt a b = true →
    charListLt b c = true → charListLt a c = true := by
  intro a
  induction a with
  | nil =>
    intro b c hab hbc
    cases b with
    | nil => exact absurd hab (by simp [charListLt])
    | cons y bs =>
      cases c with
      | nil => exact absurd hbc (by simp [charListLt])
      | cons z cs => rfl
  | cons x as ih =>
    intro b c hab hbc
    cases b with
    | nil => exact absurd hab (by simp [charListLt])
    | cons y bs =>
      cases c with
      | nil => exact absurd hbc (by simp [charListLt])
      | cons z cs =>
        rw [charListLt_cons_iff] at hab hbc ⊢
        rcases hab with h1 | ⟨rfl, h1⟩
        · rcases hbc with h2 | ⟨rfl, h2⟩
          · exact Or.inl (lt_trans h1 h2)
          · exact Or.inl h1
        · rcases hbc with h2 | ⟨rfl, h2⟩
          · exact Or.inl h2
          · exact Or.inr ⟨rfl, ih bs cs h1 h2⟩

theorem charListLt_trichotomy : ∀ (a b : List Char),
    charListLt a b = true ∨ charListLt b a = true ∨ a = b := by
  intro a
  induction a with
  | nil =>
    intro b
    cases b with
    | nil => exact Or.inr (Or.inr rfl)
    | cons y bs => exact Or.inl rfl
  | cons x as ih =>
    intro b
    cases b with
    | nil => exact Or.inr (Or.inl rfl)
    | cons y bs =>
      rcases lt_trichotomy x y with hxy | rfl | hxy
      · exact Or.inl ((charListLt_cons_iff _ _ _ _).mpr (Or.inl hxy))
      · rcases ih bs with h | h | rfl
        · exact Or.inl ((charListLt_cons_iff _ _ _ _).mpr (Or.inr ⟨rfl, h⟩))
        · exact Or.inr (Or.inl ((charListLt_cons_iff _ _ _ _).mpr (Or.inr ⟨rfl, h⟩)))
        · exact Or.inr (Or.inr rfl)
      · exact Or.inr (Or.inl ((charListLt_cons_iff _ _ _ _).mpr (Or.inl hxy)))

theorem charListLt_asymm {a b : List Char} (h : charListLt a b = true) :
    charListLt b a = false := by
  cases h2 : charListLt b a
  · rfl
  · exfalso
    have := charListLt_trans a b a h h2
    rw [charListLt_irrefl] at this
    exact Bool.noConfusion this

theorem charListLt_le_trans {a b c : List Char} (h1 : charListLt b a = false)
    (h2 : charListLt c b = false) : charListLt c a = false := by
  cases h : charListLt c a
  · rfl
  · exfalso
    rcases charListLt_trichotomy b c with hbc | hcb | heq
    · have := charListLt_trans _ _ _ hbc h
      rw [this] at h1
      exact Bool.noConfusion h1
    · rw [hcb] at h2
      exact Bool.noConfusion h2
    · rw [← heq] at h
      rw [h] at h1
      exact Bool.noConfusion h1

theorem strEq_of_data {a b : String} (h : a.data = b.data) : a = b :=
  congrArg String.mk h

instance : IsTotal CompanyRow rowLe := ⟨by
  intro r1 r2
  unfold rowLe strLeB strLtB
  rcases charListLt_trichotomy r1.empresa.data r2.empresa.data with h | h | h
  · exact Or.inl (Or.inl h)
  · exact Or.inr (Or.inl h)
  · have he : r1.empresa = r2.empresa := strEq_of_data h
    cases hd : charListLt r2.dominio.data r1.dominio.data
    · exact Or.inl (Or.inr ⟨he, by simp [hd]⟩)
    · exact Or.inr (Or.inr ⟨he.symm, by simp [charListLt_asymm hd]⟩)⟩

instance : IsTrans CompanyRow rowLe := ⟨by
  intro a b c hab hbc
  unfold rowLe strLeB strLtB at hab hbc ⊢
  rcases hab with h1 | ⟨he1, h1⟩
  · rcases hbc with h2 | ⟨he2, h2⟩
    · exact Or.inl (charListLt_trans _ _ _ h1 h2)
    · exact Or.inl (by rw [← he2]; exact h1)
  · rcases hbc with h2 | ⟨he2, h2⟩
    · exact Or.inl (by rw [he1]; exact h2)
    · refine Or.inr ⟨he1.trans he2, ?_⟩
      have l1 : charListLt b.dominio.data a.dominio.data = false := by
        cases hx : charListLt b.dominio.data a.dominio.data
        · rfl
        · rw [hx] at h1
          exact Bool.noConfusion h1
      have l2 : charListLt c.dominio.data b.dominio.data = false := by
        cases hx : charListLt c.dominio.data b.dominio.data
        · rfl
        · rw [hx] at h2
          exact Bool.noConfusion h2
      rw [charListLt_le_trans l1 l2]
      rfl⟩

theorem aggFold_keys_eq (groups : List ((String × String) × Agg)) (c : Contact) :
    (aggFold groups c).map Prod.fst =
      (if (c.empresa, c.dominio) ∈ groups.map Prod.fst then groups.map Prod.fst
       else groups.map Prod.fst ++ [(c.empresa, c.dominio)]) := by
  induction groups with
  | nil => simp [aggFold]
  | cons kb t ih =>
    rcases kb with ⟨k, a⟩
    unfold aggFold
    by_cases hk : k = (c.empresa, c.dominio)
    · rw [if_pos hk]
      subst hk
      simp
    · rw [if_neg hk]
      simp only [List.map_cons]
      rw [ih]
      by_cases hmem : (c.empresa, c.dominio) ∈ t.map Prod.fst
      · rw [if_pos hmem, if_pos (by simp [hmem])]
      · rw [if_neg hmem, if_neg (by
          simp only [List.mem_cons]
          rintro (he | hm)
          · exact hk he.symm
          · exact hmem hm)]
        simp

theorem foldAgg_keys (contacts : List Contact) :
    ∀ (groups : List ((String × String) × Agg)) (k' : String × String),
    (k' ∈ (contacts.foldl aggFold groups).map Prod.fst ↔
      k' ∈ groups.map Prod.fst ∨ ∃ c ∈ contacts, k' = (c.empresa, c.dominio)) := by
  induction contacts with
  | nil =>
    intro groups k'
    simp
  | cons c cs ih =>
    intro groups k'
    rw [List.foldl_cons, ih]
    constructor
    · rintro (hmem | ⟨c', hc', he⟩)
      · rw [aggFold_keys_eq] at hmem
        by_cases hc : (c.empresa, c.dominio) ∈ groups.map Prod.fst
        · rw [if_pos hc] at hmem
          exact Or.inl hmem
        · rw [if_neg hc] at hmem
          rcases List.mem_append.mp hmem with h | h
          · exact Or.inl h
          · rcases List.mem_singleton.mp h with rfl
            exact Or.inr ⟨c, List.mem_cons_self _ _, rfl⟩
      · exact Or.inr ⟨c', List.mem_cons_of_mem _ hc', he⟩
    · rintro (hmem | ⟨c', hc', he⟩)
      · left
        rw [aggFold_keys_eq]
        by_cases hc : (c.empresa, c.dominio) ∈ groups.map Prod.fst
        · rw [if_pos hc]
          exact hmem
        · rw [if_neg hc]
          exact List.mem_append_left _ hmem
      · rcases List.mem_cons.mp hc' with rfl | hc''
        · left
          rw [aggFold_keys_eq]
          by_cases hc : (c'.empresa, c'.dominio) ∈ groups.map Prod.fst
          · rw [if_pos hc, he]
            exact hc
          · rw [if_neg hc, he]
            exact List.mem_append_right _ (List.mem_singleton_self _)
        · exact Or.inr ⟨c', hc'', he⟩

theorem aggFold_keys_nodup (groups : List ((String × String) × Agg)) (c : Contact)
    (h : (groups.map Prod.fst).Nodup) : ((aggFold groups c).map Prod.fst).Nodup := by
  rw [aggFold_keys_eq]
  by_cases hc : (c.empresa, c.dominio) ∈ groups.map Prod.fst
  · rw [if_pos hc]
    exact h
  · rw [if_neg hc]
    simp [List.nodup_append, h, hc]

theorem foldAgg_keys_nodup (contacts : List Contact) :
    ∀ groups : List ((String × String) × Agg), (groups.map Prod.fst).Nodup →
    ((contacts.foldl aggFold groups).map Prod.fst).Nodup := by
  induction contacts with
  | nil => exact fun groups h => h
  | cons c cs ih =>
    intro groups h
    rw [List.foldl_cons]
    exact ih _ (aggFold_keys_nodup groups c h)

theorem companies_keymap (cfg : Config) (now : DateTime) (rows : List Row) :
    ((pipeline cfg now rows).companies.map (fun r => (r.empresa, r.dominio))).Perm
      (((pipeline cfg now rows).contacts.foldl aggFold []).map Prod.fst) := by
  have hperm : (pipeline cfg now rows).companies.Perm
      (((pipeline cfg now rows).contacts.foldl aggFold []).map aggRow) :=
    List.perm_insertionSort rowLe _
  have hmap := hperm.map (fun r => (r.empresa, r.dominio))
  have : (((pipeline cfg now rows).contacts.foldl aggFold []).map aggRow).map
      (fun r => (r.empresa, r.dominio)) =
      ((pipeline cfg now rows).contacts.foldl aggFold []).map Prod.fst := by
    rw [List.map_map]
    apply List.map_congr_left
    intro ka _
    rfl
  rwa [this] at hmap

/-- Claim C8: the Companies table is grouped by the pair (company label,
domain) — its key list is duplicate-free and contains exactly the
(Empresa, Dominio) pairs of the merged contacts, so equal labels under
different domains give separate rows — and it is sorted by company then
domain in code-point (case-sensitive) lexicographic order of the stored
text. -/
theorem C8_rollup (cfg : Config) (now : DateTime) (rows : List Row) :
    (pipeline cfg now rows).companies.Pairwise rowLe ∧
    ((pipeline cfg now rows).companies.map (fun r => (r.empresa, r.dominio))).Nodup ∧
    ∀ e d, ((e, d) ∈ (pipeline cfg now rows).companies.map
        (fun r => (r.empresa, r.dominio)) ↔
      ∃ c ∈ (pipeline cfg now rows).contacts, c.empresa = e ∧ c.dominio = d) := by
  refine ⟨?_, ?_, ?_⟩
  · exact List.sorted_insertionSort rowLe _
  · exact (companies_keymap cfg now rows).nodup_iff.mpr
      (foldAgg_keys_nodup _ [] (by simp))
  · intro e d
    rw [(companies_keymap cfg now rows).mem_iff,
      foldAgg_keys (pipeline cfg now rows).contacts [] (e, d)]
    constructor
    · rintro (h | ⟨c, hc, he⟩)
      · simp at h
      · exact ⟨c, hc, congrArg Prod.fst he.symm, congrArg Prod.snd he.symm⟩
    · rintro ⟨c, hc, he, hd⟩
      exact Or.inr ⟨c, hc, by rw [he, hd]⟩

def cfgC8 : Config :=
  { dateCol := none, months := 6, useRole := true, customPrefixes := [], useRegex := false }

def nowC8 : DateTime := ⟨2024, 1, 1, 0, 0, 0⟩

def rowsC8 : List Row := [[("A", "bob@acme.io"), ("B", "ann@acme.dev")]]

/-- Claim C8 witness: two contacts whose domains differ but whose company
labels are both "Acme" yield two separate rows, sorted by domain; the
theorem's key characterisation holds at the concrete key ("Acme",
"acme.io"). -/
theorem C8_witness :
    ((pipeline cfgC8 nowC8 rowsC8).companies.map (fun r => (r.empresa, r.dominio)) =
      [("Acme", "acme.dev"), ("Acme", "acme.io")]) ∧
    (("Acme", "acme.io") ∈ (pipeline cfgC8 nowC8 rowsC8).companies.map
      (fun r => (r.empresa, r.dominio))) :=
  ⟨by decide,
    ((C8_rollup cfgC8 nowC8 rowsC8).2.2 "Acme" "acme.io").mpr
      ⟨{ email := "bob@acme.io", nombre := "Bob", apellido := "", dominio := "acme.io",
         empresa := "Acme", pais := "", ultimoEnvio := "",
         estadoCliente := "Cliente para seguimiento", asuntoUltimo := "",
         columnasOrigen := "A;B" }, by decide, rfl, rfl⟩⟩

/-! ## Claim C2 (amended): pooled per-row source columns -/

/-- Effect of processing one sighting of `em` on its source-column set. -/
def stepCols (cfg : Config) (em : String) (cols : List String)
    (cur : Option (List String)) : Option (List String) :=
  match splitAtFirstAt em with
  | none => cur
  | some (localPart, _) =>
    if is_excluded_local cfg localPart then cur
    else some (cols.foldl insertSet (cur.getD []))

theorem stepCols_noSplit (cfg : Config) (em : String) (cols : List String)
    (cur : Option (List String)) (h : splitAtFirstAt em = none) :
    stepCols cfg em cols cur = cur := by
  unfold stepCols
  rw [h]

theorem stepCols_excl (cfg : Config) (em l d : String) (cols : List String)
    (cur : Option (List String)) (h : splitAtFirstAt em = some (l, d))
    (hex : is_excluded_local cfg l = true) : stepCols cfg em cols cur = cur := by
  unfold stepCols
  simp only [h, hex, if_true]

theorem stepCols_go (cfg : Config) (em l d : String) (cols : List String)
    (cur : Option (List String)) (h : splitAtFirstAt em = some (l, d))
    (hex : is_excluded_local cfg l = false) :
    stepCols cfg em cols cur = some (cols.foldl insertSet (cur.getD [])) := by
  unfold stepCols
  simp only [h, hex, Bool.false_eq_true, if_false]

theorem colsLookup_processEmail (cfg : Config) (idx : Nat) (sent : Option DateTime)
    (subj : String) (cols : List String) (st : PipeState) (e em : String) :
    (processEmail cfg idx sent subj cols st e).colsByEmail.lookup em =
      (if e = em then stepCols cfg em cols (st.colsByEmail.lookup em)
       else st.colsByEmail.lookup em) := by
  cases hsp : splitAtFirstAt e with
  | none =>
    rw [processEmail_none cfg idx sent subj cols st e hsp]
    by_cases he : e = em
    · subst he
      rw [if_pos rfl, stepCols_noSplit cfg e cols _ hsp]
    · rw [if_neg he]
  | some pr =>
    rcases pr with ⟨l, d⟩
    by_cases hex : is_excluded_local cfg l = true
    · rw [processEmail_excl cfg idx sent subj cols st e l d hsp hex]
      by_cases he : e = em
      · subst he
        rw [if_pos rfl, stepCols_excl cfg e l d cols _ hsp hex]
      · rw [if_neg he]
    · have hex' : is_excluded_local cfg l = false := by
        cases hb : is_excluded_local cfg l
        · rfl
        · exact absurd hb hex
      cases hl : st.records.lookup e with
      | none =>
        rw [processEmail_new cfg idx sent subj cols st e l d hsp hex' hl]
        by_cases he : e = em
        · subst he
          rw [if_pos rfl]
          simp only
          rw [lookup_unionAt, if_pos rfl, stepCols_go cfg e l d cols _ hsp hex']
        · rw [if_neg he]
          simp only
          rw [lookup_unionAt, if_neg (fun hek => he hek.symm)]
      | some prev =>
        rw [processEmail_merge cfg idx sent subj cols st e l d prev hsp hex' hl]
        by_cases he : e = em
        · subst he
          rw [if_pos rfl]
          simp only
          rw [lookup_unionAt, if_pos rfl, stepCols_go cfg e l d cols _ hsp hex']
        · rw [if_neg he]
          simp only
          rw [lookup_unionAt, if_neg (fun hek => he hek.symm)]

theorem colsLookup_foldFound (cfg : Config) (idx : Nat) (sent : Option DateTime)
    (subj : String) (cols : List String) (found : List String) (st : PipeState)
    (em : String) (hnd : found.Nodup) :
    (found.foldl (processEmail cfg idx sent subj cols) st).colsByEmail.lookup em =
      (if em ∈ found then stepCols cfg em cols (st.colsByEmail.lookup em)
       else st.colsByEmail.lookup em) := by
  induction found generalizing st with
  | nil => simp
  | cons e fs ih =>
    rw [List.foldl_cons]
    have hnd' := List.nodup_cons.mp hnd
    rw [ih _ hnd'.2]
    by_cases he : e = em
    · subst he
      rw [if_neg (fun hmem => hnd'.1 hmem)]
      rw [colsLookup_processEmail, if_pos rfl]
      rw [if_pos (List.mem_cons_self _ _)]
    · by_cases hmem : em ∈ fs
      · rw [if_pos hmem, if_pos (List.mem_cons_of_mem _ hmem)]
        rw [colsLookup_processEmail, if_neg he]
      · rw [if_neg hmem]
        rw [colsLookup_processEmail, if_neg he]
        rw [if_neg (by
          intro hc
          rcases List.mem_cons.mp hc with rfl | hc'
          · exact he rfl
          · exact hmem hc')]

theorem colsLookup_processRow (cfg : Config) (st : PipeState) (idx : Nat) (row : Row)
    (em : String) :
    (processRow cfg st idx row).colsByEmail.lookup em =
      (if em ∈ (harvest_emails_from_row row).1 then
        stepCols cfg em (harvest_emails_from_row row).2 (st.colsByEmail.lookup em)
       else st.colsByEmail.lookup em) :=
  colsLookup_foldFound cfg idx (rowSent cfg row) (rowSubject row)
    (harvest_emails_from_row row).2 (harvest_emails_from_row row).1 st em
    (harvest_nodup row).1

/-- The pooled column sets of the rows in which `em` was harvested. -/
def colsRowsFor (rows : List Row) (em : String) : List (List String) :=
  rows.filterMap (fun row =>
    if em ∈ (harvest_emails_from_row row).1 then some (harvest_emails_from_row row).2
    else none)

theorem colsLookup_processRowsFrom (cfg : Config) (rows : List Row) (idx : Nat)
    (st : PipeState) (em : String) :
    (processRowsFrom cfg idx st rows).colsByEmail.lookup em =
      (colsRowsFor rows em).foldl (fun cur cols => stepCols cfg em cols cur)
        (st.colsByEmail.lookup em) := by
  induction rows generalizing idx st with
  | nil => rfl
  | cons row rest ih =>
    unfold processRowsFrom colsRowsFor
    rw [List.filterMap_cons]
    by_cases hmem : em ∈ (harvest_emails_from_row row).1
    · rw [if_pos hmem]
      simp only [List.foldl_cons]
      rw [ih]
      rw [colsLookup_processRow, if_pos hmem]
      rfl
    · rw [if_neg hmem]
      rw [ih]
      rw [colsLookup_processRow, if_neg hmem]
      rfl

theorem insertAll_mem (cols acc : List String) (x : String) :
    x ∈ cols.foldl insertSet acc ↔ x ∈ acc ∨ x ∈ cols := by
  induction cols generalizing acc with
  | nil => simp
  | cons c cs ih =>
    rw [List.foldl_cons, ih]
    simp only [mem_insertSet, List.mem_cons]
    constructor
    · rintro ((hx | rfl) | hx)
      · exact Or.inl hx
      · exact Or.inr (Or.inl rfl)
      · exact Or.inr (Or.inr hx)
    · rintro (hx | (rfl | hx))
      · exact Or.inl (Or.inl hx)
      · exact Or.inl (Or.inr rfl)
      · exact Or.inr hx

theorem foldColsGo_mem (cfg : Config) (em l d : String)
    (hsplit : splitAtFirstAt em = some (l, d)) (hex : is_excluded_local cfg l = false)
    (colsList : List (List String)) :
    ∀ (cur : Option (List String)) (x : String),
    (x ∈ ((colsList.foldl (fun cur cols => stepCols cfg em cols cur) cur).getD []) ↔
      x ∈ cur.getD [] ∨ ∃ cs ∈ colsList, x ∈ cs) := by
  induction colsList with
  | nil => simp
  | cons cs rest ih =>
    intro cur x
    rw [List.foldl_cons, stepCols_go cfg em l d cs cur hsplit hex, ih]
    simp only [Option.getD_some, insertAll_mem]
    constructor
    · rintro ((hx | hx) | ⟨cs', hcs', hx⟩)
      · exact Or.inl hx
      · exact Or.inr ⟨cs, List.mem_cons_self _ _, hx⟩
      · exact Or.inr ⟨cs', List.mem_cons_of_mem _ hcs', hx⟩
    · rintro (hx | ⟨cs', hcs', hx⟩)
      · exact Or.inl (Or.inl hx)
      · rcases List.mem_cons.mp hcs' with rfl | hcs''
        · exact Or.inl (Or.inr hx)
        · exact Or.inr ⟨cs', hcs'', hx⟩

theorem colsRowsFor_mem (rows : List Row) (em : String) (cs : List String) :
    cs ∈ colsRowsFor rows em ↔
      ∃ row ∈ rows, em ∈ (harvest_emails_from_row row).1 ∧
        cs = (harvest_emails_from_row row).2 := by
  unfold colsRowsFor
  rw [List.mem_filterMap]
  constructor
  · rintro ⟨row, hrow, hf⟩
    by_cases hm : em ∈ (harvest_emails_from_row row).1
    · rw [if_pos hm] at hf
      exact ⟨row, hrow, hm, (Option.some.inj hf).symm⟩
    · rw [if_neg hm] at hf
      exact absurd hf (by simp)
  · rintro ⟨row, hrow, hm, rfl⟩
    exact ⟨row, hrow, by rw [if_pos hm]⟩

/-- Claim C2 (amended): harvesting returns the set of lowercased addresses
found in the row's cells together with ONE pooled set of the columns in which
any address matched; a contact's stored source columns are the union of these
pooled per-row sets over the rows in which the address was harvested, and its
ColumnasOrigen cell is that union sorted and semicolon-joined — so it may
include a column in which only another address appeared. -/
theorem C2_amended (cfg : Config) (rows : List Row) (em : String)
    (hx : ∀ l d, splitAtFirstAt em = some (l, d) → is_excluded_local cfg l = false) :
    (∀ (row : Row) (em' : String), em' ∈ (harvest_emails_from_row row).1 ↔
      ∃ cv ∈ row, ∃ m ∈ extractEmails cv.2,
        em' = lowerStr m ∧ (lowerStr m).data.contains '@' = true) ∧
    (∀ (row : Row) (col : String), col ∈ (harvest_emails_from_row row).2 ↔
      ∃ cv ∈ row, col = cv.1 ∧ ∃ m ∈ extractEmails cv.2,
        (lowerStr m).data.contains '@' = true) ∧
    (∀ col, col ∈ (((processRows cfg rows).colsByEmail.lookup em).getD []) ↔
      ∃ row ∈ rows, em ∈ (harvest_emails_from_row row).1 ∧
        col ∈ (harvest_emails_from_row row).2) ∧
    (∀ (now : DateTime) (c : Contact), c ∈ (pipeline cfg now rows).contacts →
      c.email = em →
      c.columnasOrigen =
        joinStr ";" (sortStrings (((processRows cfg rows).colsByEmail.lookup em).getD
          []))) := by
  have hfold : (processRows cfg rows).colsByEmail.lookup em =
      (colsRowsFor rows em).foldl (fun cur cols => stepCols cfg em cols cur) none := by
    unfold processRows
    exact colsLookup_processRowsFrom cfg rows 0 initState em
  refine ⟨harvest_emails_iff, harvest_cols_iff, ?_, ?_⟩
  · intro col
    cases hsp : splitAtFirstAt em with
    | none =>
      constructor
      · intro hmem
        exfalso
        rw [hfold] at hmem
        rw [show ((colsRowsFor rows em).foldl
            (fun cur cols => stepCols cfg em cols cur) none) = none from by
          induction colsRowsFor rows em with
          | nil => rfl
          | cons cs rest ih =>
            rw [List.foldl_cons, stepCols_noSplit cfg em cs none hsp]
            exact ih] at hmem
        simp at hmem
      · rintro ⟨row, _, hm, _⟩
        exfalso
        rcases (harvest_emails_iff row em).mp hm with ⟨cv, _, m, _, rfl, hc⟩
        rcases splitAtAux_of_contains [] (by simpa using hc) with ⟨l, d, hsome⟩
        rw [show splitAtFirstAt (lowerStr m) = splitAtAux [] (lowerStr m).data from rfl,
          hsome] at hsp
        exact Option.noConfusion hsp
    | some pr =>
      rcases pr with ⟨l, d⟩
      have hex := hx l d hsp
      rw [hfold, foldColsGo_mem cfg em l d hsp hex (colsRowsFor rows em) none col]
      constructor
      · rintro (hc | ⟨cs, hcs, hc⟩)
        · simp at hc
        · rcases (colsRowsFor_mem rows em cs).mp hcs with ⟨row, hrow, hm, rfl⟩
          exact ⟨row, hrow, hm, hc⟩
      · rintro ⟨row, hrow, hm, hc⟩
        exact Or.inr ⟨(harvest_emails_from_row row).2,
          (colsRowsFor_mem rows em _).mpr ⟨row, hrow, hm, rfl⟩, hc⟩
  · intro now c hc hce
    rcases contacts_from_records cfg now rows c hc with ⟨p, _, hcp, hcpe⟩
    have hpe : p.1 = em := by rw [← hcpe, hce]
    rw [hcp]
    show joinStr ";" (sortStrings (((processRows cfg rows).colsByEmail.lookup p.1).getD
      [])) = _
    rw [hpe]

def rowC2b : Row := [("A", "x@aa.com"), ("B", "y@bb.com")]

/-- Claim C2 (amended) witness: in the two-column row, `x@aa.com`'s stored
source-column set contains "B" — the column in which only `y@bb.com`
appeared — exactly as the pooled-columns semantics prescribes. -/
theorem C2_amended_witness :
    ("B" : String) ∈ (((processRows cfgC2 [rowC2b]).colsByEmail.lookup "x@aa.com").getD
      []) ∧
    ("x@aa.com" : String) ∈ (harvest_emails_from_row rowC2b).1 ∧
    ("B" : String) ∈ (harvest_emails_from_row rowC2b).2 :=
  ⟨((C2_amended cfgC2 [rowC2b] "x@aa.com" (by
      intro l d h
      have h' : (("x" : String), ("aa.com" : String)) = (l, d) := Option.some.inj h
      injection h' with h1 h2
      subst h1
      subst h2
      decide)).2.2.1 "B").mpr ⟨rowC2b, by decide, by decide, by decide⟩,
    by decide, by decide⟩

end OutlookExtract
